import Mathlib

/-!
Verification of the circuit-analysis pipeline in `BCSThesis/Source/GRacC.py`
(with its near-duplicate `BCSThesis/GRacC.py`, whose `get_A_coord` is the same
function as `get_edge_index`).

The Python code works over `networkx` graphs built from an adjacency matrix.
We embed the program shallowly:

* a circuit is the parsed branch-record list together with the node count
  (the data `circuit_parser` extracts from the input file);
* the derived `networkx` objects (adjacency-dictionary order, `kg.edges()`
  enumeration order, `kg.neighbors`, `nx.to_numpy_array`) are modelled by
  executable functions that reproduce the library's documented dictionary
  insertion order: `nx.from_pandas_adjacency` inserts edges in row-major
  order of the nonzero matrix entries, `G.edges()` reports each edge at its
  first endpoint in node order, and adjacency matrices are symmetric 0/1
  matrices (here `Bool`-valued, `true` standing for the entry 1);
* external library algorithms used by the code (`nx.minimum_spanning_tree`,
  `nx.find_cycle`, `scipy.linalg.solve`) are modelled by executable
  functions faithful to their documented contracts: Kruskal's greedy
  spanning-forest selection in `G.edges()` order (all weights are 1, and
  Python's stable sort keeps that order), depth-first unique-cycle discovery
  returning the cycle as a list of `(tail, head)` traversal pairs or failure
  when the graph is acyclic, and a direct dense linear solve in exact
  rational arithmetic that fails on a non-square or singular system;
* machine floats are modelled by `ℚ`; fallible steps return `Option`.
-/

namespace GRacC

/-- One parsed branch record: origin, destination and the four component
attributes (`resistor`, `battery`, `capacitor`, `self`) that
`circuit_parser` stores on the edge; `suggested_dir` is the pair
`(org, dst)` as given, so it is not stored separately. -/
structure BranchRec where
  org : ℕ
  dst : ℕ
  res : ℚ
  vol : ℚ
  cap : ℚ
  ind : ℚ
  deriving DecidableEq

/-- A circuit: node count (nodes are `0 .. n-1`) and the branch records in
file order.  This is exactly the information `circuit_parser` turns into
the `networkx` graph `kg`. -/
structure Circuit where
  n : ℕ
  recs : List BranchRec
  deriving DecidableEq

/-- Wellformedness of a single record: endpoints in range and distinct. -/
def WFB (c : Circuit) (r : BranchRec) : Prop :=
  r.org < c.n ∧ r.dst < c.n ∧ r.org ≠ r.dst

/-- Two records declare the same unordered node pair. -/
def samePair (r s : BranchRec) : Prop :=
  (r.org = s.org ∧ r.dst = s.dst) ∨ (r.org = s.dst ∧ r.dst = s.org)

/-- Wellformed circuit: every record in range with distinct endpoints, and
no two records declare the same unordered pair (the graph is simple). -/
def WF (c : Circuit) : Prop :=
  (∀ r ∈ c.recs, WFB c r) ∧ c.recs.Pairwise (fun r s => ¬ samePair r s)

instance (c : Circuit) (r : BranchRec) : Decidable (WFB c r) := by
  unfold WFB; infer_instance

instance (r s : BranchRec) : Decidable (samePair r s) := by
  unfold samePair; infer_instance

instance (c : Circuit) : Decidable (WF c) := by
  unfold WF; infer_instance

/-- The asymmetric 0/1 matrix `kgam` that `circuit_parser` fills:
entry `(i, j)` is set by a record with origin `i` and destination `j`. -/
def kgam (c : Circuit) (i j : ℕ) : Bool :=
  c.recs.any (fun r => r.org = i && r.dst = j)

/-- Row-major list of the nonzero entries of `kgam` — the order in which
`nx.from_pandas_adjacency` inserts the edges into the graph. -/
def nzList (c : Circuit) : List (ℕ × ℕ) :=
  (List.range c.n).flatMap (fun i =>
    (List.range c.n).filterMap (fun j => if kgam c i j then some (i, j) else none))

/-- Append a neighbor to an adjacency list unless already present — the
effect of `networkx`'s dictionary insertion. -/
def addNbr (acc : List ℕ) (v : ℕ) : List ℕ :=
  if v ∈ acc then acc else acc ++ [v]

/-- The adjacency dictionary of `kg` in insertion order: scanning the
nonzero entries row-major, each edge `(i, j)` appends `j` to `adj i` and
`i` to `adj j`. -/
def adjList (c : Circuit) (u : ℕ) : List ℕ :=
  (nzList c).foldl
    (fun acc p =>
      if p.1 = u then addNbr acc p.2
      else if p.2 = u then addNbr acc p.1 else acc) []

/-- The enumeration `kg.edges()`: nodes in ascending order; at node `u`
every neighbor `v` not belonging to an earlier node, i.e. `u ≤ v`, yields
the pair `(u, v)` in adjacency order.  Matrix columns of the linear system
are indexed by positions in this list. -/
def edgesList (c : Circuit) : List (ℕ × ℕ) :=
  (List.range c.n).flatMap (fun u =>
    ((adjList c u).filter (fun v => u ≤ v)).map (fun v => (u, v)))

/-- The source's `isstraight(org, dst, suggested_dir)`. -/
def isstraight (org dst : ℕ) (sug : ℕ × ℕ) : Bool :=
  sug.1 = org && sug.2 = dst

/-- The source's `get_edge_index` (named `get_A_coord` in the duplicate
file): index of the first edge of `kg.edges()` matching the unordered pair;
the Python function falls through and returns `None` when nothing matches,
modelled by `none`. -/
def get_edge_index (c : Circuit) (org dst : ℕ) : Option ℕ :=
  (edgesList c).findIdx? (fun e =>
    (e.1 = org && e.2 = dst) || (e.2 = org && e.1 = dst))

/-- `kg.get_edge_data(org, dst)`: the attribute bundle of the edge joining
the unordered pair, if any.  (`networkx` lookup is symmetric.) -/
def edgeData (c : Circuit) (org dst : ℕ) : Option BranchRec :=
  c.recs.find? (fun r =>
    (r.org = org && r.dst = dst) || (r.org = dst && r.dst = org))

/-- `nx.to_numpy_array(kg)` as a Boolean matrix: symmetric adjacency of the
circuit graph (every edge has weight 1). -/
def kgamSym (c : Circuit) (i j : ℕ) : Bool :=
  c.recs.any (fun r =>
    (r.org = i && r.dst = j) || (r.org = j && r.dst = i))

/-- Graph adjacency as a proposition: some record joins `u` and `v`. -/
def Adj (c : Circuit) (u v : ℕ) : Prop :=
  ∃ r ∈ c.recs, (r.org = u ∧ r.dst = v) ∨ (r.org = v ∧ r.dst = u)

/-- Equality of unordered node pairs. -/
def upEq (a b : ℕ × ℕ) : Prop :=
  (a.1 = b.1 ∧ a.2 = b.2) ∨ (a.1 = b.2 ∧ a.2 = b.1)

/-- Reachability along a list of undirected edges. -/
def Reach (es : List (ℕ × ℕ)) : ℕ → ℕ → Prop :=
  Relation.ReflTransGen (fun a b => (a, b) ∈ es ∨ (b, a) ∈ es)

/-- One step of Kruskal's algorithm on the state (component labelling,
selected edges): skip an edge inside one component, otherwise keep it and
merge the two components. -/
def kruskalStep (s : (ℕ → ℕ) × List (ℕ × ℕ)) (e : ℕ × ℕ) : (ℕ → ℕ) × List (ℕ × ℕ) :=
  if s.1 e.1 = s.1 e.2 then s
  else (fun x => if s.1 x = s.1 e.1 then s.1 e.2 else s.1 x, s.2 ++ [e])

/-- `nx.minimum_spanning_tree` modelled by Kruskal's algorithm: all edge
weights equal 1, so the stable sort leaves `G.edges()` order unchanged and
the greedy union-find selection depends only on connectivity. -/
def kruskalRun (es : List (ℕ × ℕ)) : (ℕ → ℕ) × List (ℕ × ℕ) :=
  es.foldl kruskalStep (id, [])

/-- The edges of the spanning forest `kgmst`, in selection order. -/
def mstEdges (c : Circuit) : List (ℕ × ℕ) :=
  (kruskalRun (edgesList c)).2

/-- `nx.to_numpy_array(kgmst)` as a Boolean matrix (`kgmstam`). -/
def kgmstam (c : Circuit) (i j : ℕ) : Bool :=
  decide ((i, j) ∈ mstEdges c) || decide ((j, i) ∈ mstEdges c)

/-- All index pairs `(i, j)` with `i, j < n` in row-major order — the
iteration space of the double loop in `Eliminated_Edges`. -/
def pairsRM (n : ℕ) : List (ℕ × ℕ) :=
  (List.range n).flatMap (fun i => (List.range n).map (fun j => (i, j)))

/-- Loop body of `Eliminated_Edges`: record `(i, j)` when the graph has the
edge, the spanning tree does not, and the swapped pair was not yet
recorded. -/
def elimStep (am mstam : ℕ → ℕ → Bool) (l : List (ℕ × ℕ)) (p : ℕ × ℕ) : List (ℕ × ℕ) :=
  if am p.1 p.2 = true ∧ mstam p.1 p.2 = false ∧ (p.2, p.1) ∉ l then l ++ [p] else l

/-- The source's `Eliminated_Edges(kgam, kgmstam)`: co-tree edges,
de-duplicated by unordered pair. -/
def Eliminated_Edges (n : ℕ) (am mstam : ℕ → ℕ → Bool) : List (ℕ × ℕ) :=
  (pairsRM n).foldl (elimStep am mstam) []

/-- The co-tree edge list `eled` of a circuit. -/
def eled (c : Circuit) : List (ℕ × ℕ) :=
  Eliminated_Edges c.n (kgamSym c) (kgmstam c)

/-- Set one matrix entry to 1 (`glam[i][a][b] = 1`). -/
def setE (m : ℕ → ℕ → Bool) (a b : ℕ) : ℕ → ℕ → Bool :=
  fun i j => if i = a ∧ j = b then true else m i j

/-- Loop body of `graph_list`: slab `st.2` of the 3-dimensional array is
overwritten with a copy of the spanning-tree matrix (`glam[i] = kgmstam`
copies in `numpy`) and then the co-tree edge is inserted symmetrically;
other slabs are untouched. -/
def glStep (mstam : ℕ → ℕ → Bool) (st : (ℕ → ℕ → ℕ → Bool) × ℕ) (e : ℕ × ℕ) :
    (ℕ → ℕ → ℕ → Bool) × ℕ :=
  (fun k => if k = st.2 then setE (setE mstam e.1 e.2) e.2 e.1 else st.1 k, st.2 + 1)

/-- The source's `graph_list` array `glam`: slab `i` is the spanning tree
plus the `i`-th co-tree edge; slabs beyond the co-tree count stay zero. -/
def graph_list_am (mstam : ℕ → ℕ → Bool) (el : List (ℕ × ℕ)) : ℕ → ℕ → ℕ → Bool :=
  (el.foldl (glStep mstam) (fun _ _ _ => false, 0)).1

/-- Adjacency list of the graph `nx.from_pandas_adjacency` builds from a
symmetric matrix slab: the row-major insertion order sorts each node's
neighbors ascending. -/
def adjOfSym (n : ℕ) (m : ℕ → ℕ → Bool) (u : ℕ) : List ℕ :=
  (List.range n).filter (fun v => m u v)

/-- First successful application of `f` along a list. -/
def firstSome? {α β : Type} (l : List α) (f : α → Option β) : Option β :=
  match l with
  | [] => none
  | a :: t =>
    match f a with
    | some b => some b
    | none => firstSome? t f

/-- Depth-first search for a path `u → target` avoiding `visited`,
returning the node list of the path; fuel bounds the recursion depth. -/
def pathSearch (adj : ℕ → List ℕ) (target : ℕ) :
    ℕ → List ℕ → ℕ → Option (List ℕ)
  | 0, _, _ => none
  | fuel + 1, visited, u =>
    if u = target then some [u]
    else
      firstSome? (adj u) (fun v =>
        if v ∈ visited then none
        else (pathSearch adj target fuel (u :: visited) v).map (fun p => u :: p))

/-- Edges `(u, v)` with `u ≤ v` of an adjacency-list graph in `G.edges()`
order. -/
def edgesOfAdj (n : ℕ) (adj : ℕ → List ℕ) : List (ℕ × ℕ) :=
  (List.range n).flatMap (fun u =>
    ((adj u).filter (fun v => u ≤ v)).map (fun v => (u, v)))

/-- Remove the undirected edge `{a, b}` from an adjacency-list graph. -/
def removeEdgeAdj (adj : ℕ → List ℕ) (a b : ℕ) : ℕ → List ℕ :=
  fun u =>
    if u = a then (adj a).filter (fun v => v ≠ b)
    else if u = b then (adj b).filter (fun v => v ≠ a) else adj u

/-- Consecutive pairs of a node list: the `(tail, head)` edges of a walk. -/
def toEdgePairs : List ℕ → List (ℕ × ℕ)
  | a :: b :: t => (a, b) :: toEdgePairs (b :: t)
  | _ => []

/-- Model of `nx.find_cycle(g, orientation="ignore")` on an undirected
graph: a cycle found by depth-first traversal, returned as the list of
`(tail, head)` pairs of a closed walk, or `none` when the graph is acyclic
(the `NetworkXNoCycle` exception).  For each candidate edge `(u, v)` a
depth-first search looks for a path `v → u` avoiding that edge; the cycle
closes the path with the edge itself. -/
def find_cycle (n : ℕ) (adj : ℕ → List ℕ) : Option (List (ℕ × ℕ)) :=
  firstSome? (edgesOfAdj n adj) (fun e =>
    (pathSearch (removeEdgeAdj adj e.1 e.2) e.1 (n + 1) [] e.2).map
      (fun p => e :: toEdgePairs p))

/-- The trial graphs `gl`: for each co-tree edge, the spanning tree with
that edge re-inserted, as adjacency lists. -/
def gl (c : Circuit) : List (ℕ → List ℕ) :=
  (List.range (eled c).length).map
    (fun k => adjOfSym c.n (graph_list_am (kgmstam c) (eled c) k))

/-- The source's `find_fundamental_cycles`: cycles of the trial graphs;
a trial graph in which no cycle is found is skipped (`continue`). -/
def find_fundamental_cycles (n : ℕ) (gs : List (ℕ → List ℕ)) : List (List (ℕ × ℕ)) :=
  gs.filterMap (find_cycle n)

/-- The fundamental cycle list `fcl` of a circuit. -/
def fcl (c : Circuit) : List (List (ℕ × ℕ)) :=
  find_fundamental_cycles c.n (gl c)

/-- Rational addition spelled through `mkRat` so that it reduces inside
the kernel; `radd_eq` proves it equal to `+`. -/
def radd (a b : ℚ) : ℚ :=
  mkRat (a.num * b.den + b.num * a.den) (a.den * b.den)

/-- Rational subtraction spelled through `mkRat`; equal to `-` by
`rsub_eq`. -/
def rsub (a b : ℚ) : ℚ :=
  mkRat (a.num * b.den - b.num * a.den) (a.den * b.den)

/-- Rational multiplication spelled through `mkRat`; equal to `*` by
`rmul_eq`. -/
def rmul (a b : ℚ) : ℚ :=
  mkRat (a.num * b.num) (a.den * b.den)

/-- Rational division spelled through `mkRat`; equal to `/` by
`rdiv_eq`. -/
def rdiv (a b : ℚ) : ℚ :=
  if b.num < 0 then mkRat (-(a.num * (b.den : ℤ))) (a.den * (-b.num).toNat)
  else mkRat (a.num * (b.den : ℤ)) (a.den * b.num.toNat)

/-- One step of the voltage accumulator, as the spec states it: decrease
by the branch's source voltage on a straight traversal, increase on a
reversed one. -/
def volStep (c : Circuit) (s : ℚ) (e : ℕ × ℕ) : ℚ :=
  match edgeData c e.1 e.2 with
  | some r => if isstraight e.1 e.2 (r.org, r.dst) then s - r.vol else s + r.vol
  | none => s

/-- The accumulated voltage sum of a KVL row, written as the spec states
it (walking the cycle from 0). -/
def specVolsum (c : Circuit) (cy : List (ℕ × ℕ)) : ℚ :=
  cy.foldl (volStep c) 0

/-- State of the equation assembly in `find_kg_edges_weights`: the matrix
`A`, the right-hand side `B` (both preallocated zero) and the row counter
`i`. -/
structure Asm where
  A : ℕ → ℕ → ℚ
  B : ℕ → ℚ
  i : ℕ

/-- Write one matrix entry (`A[r][c] = x`). -/
def updA (A : ℕ → ℕ → ℚ) (r co : ℕ) (x : ℚ) : ℕ → ℕ → ℚ :=
  fun i j => if i = r ∧ j = co then x else A i j

/-- Write one vector entry (`B[r][0] = x`). -/
def updB (B : ℕ → ℚ) (r : ℕ) (x : ℚ) : ℕ → ℚ :=
  fun i => if i = r then x else B i

/-- Inner KVL step of `find_kg_edges_weights` for one `(org, dst)` pair of
a cycle: straight traversal subtracts the battery from the voltage
accumulator and writes minus the resistance, reversed traversal adds the
battery and writes plus the resistance.  A failing attribute or index
lookup (a `KeyError` / indexing with `None` in Python) is `none`. -/
def kvlEdge (c : Circuit) (row : ℕ) (st : (ℕ → ℕ → ℚ) × ℚ) (e : ℕ × ℕ) :
    Option ((ℕ → ℕ → ℚ) × ℚ) :=
  match edgeData c e.1 e.2, get_edge_index c e.1 e.2 with
  | some r, some cor =>
    if isstraight e.1 e.2 (r.org, r.dst) then
      some (updA st.1 row cor (-r.res), rsub st.2 r.vol)
    else
      some (updA st.1 row cor r.res, radd st.2 r.vol)
  | _, _ => none

/-- One KVL row: walk the cycle with voltage accumulator `volsum = 0`,
then store the accumulated sum in `B[i]` and advance the row counter. -/
def kvlCycle (c : Circuit) (st : Asm) (cy : List (ℕ × ℕ)) : Option Asm := do
  let r ← cy.foldlM (kvlEdge c st.i) (st.A, 0)
  some ⟨r.1, updB st.B st.i r.2, st.i + 1⟩

/-- The KVL phase: one row per fundamental cycle, in order. -/
def kvlPhase (c : Circuit) (st : Asm) : Option Asm :=
  (fcl c).foldlM (kvlCycle c) st

/-- One KCL row for a node: for each incident edge, write `-1` when the
`(node, neighbor)` direction is straight, else `+1`; `B` is untouched. -/
def kclNode (c : Circuit) (st : Asm) (node : ℕ) : Option Asm := do
  let A ← (adjList c node).foldlM
    (fun A nei =>
      match edgeData c node nei, get_edge_index c node nei with
      | some r, some cor =>
        some (updA A st.i cor (if isstraight node nei (r.org, r.dst) then -1 else 1))
      | _, _ => none)
    st.A
  some ⟨A, st.B, st.i + 1⟩

/-- The KCL phase: iterate the nodes; after each node the row counter is
checked against the edge count and the loop breaks on equality. -/
def kclLoop (c : Circuit) (E : ℕ) : Asm → List ℕ → Option Asm
  | st, [] => some st
  | st, nd :: rest => do
    let st1 ← kclNode c st nd
    if st1.i = E then some st1 else kclLoop c E st1 rest

/-- The full equation assembly of `find_kg_edges_weights`: KVL rows for the
fundamental cycles, then KCL rows over the nodes until the row count
reaches the edge count. -/
def assemble (c : Circuit) : Option Asm := do
  let st ← kvlPhase c ⟨fun _ _ => 0, fun _ => 0, 0⟩
  kclLoop c (edgesList c).length st (List.range c.n)

/-- First row with a nonzero leading coefficient, and the remaining rows. -/
def splitPivot : List (List ℚ) → Option (List ℚ × List (List ℚ))
  | [] => none
  | r :: rs =>
    match r with
    | [] => none
    | h :: _ =>
      if h ≠ 0 then some (r, rs)
      else (splitPivot rs).map (fun p => (p.1, r :: p.2))

/-- Back-substitution helper: given the tail coefficients of a normalized
row (ending with the right-hand side) and the already-solved variables,
compute the leading variable. -/
def backSub : List ℚ → List ℚ → ℚ
  | [b], [] => b
  | co :: cs, x :: xs => rsub (backSub cs xs) (rmul co x)
  | _, _ => 0

/-- One forward-elimination level of Gaussian elimination on an augmented
matrix, recursing on the row count as fuel. -/
def gaussAux : ℕ → List (List ℚ) → Option (List ℚ)
  | 0, _ => some []
  | fuel + 1, rows =>
    match splitPivot rows with
    | none => none
    | some (p, rest) =>
      match p with
      | [] => none
      | ph :: pt =>
        let pn := pt.map (fun x => rdiv x ph)
        let rest1 := rest.map (fun r =>
          match r with
          | [] => []
          | rh :: rt => (rt.zip pn).map (fun q => rsub q.1 (rmul rh q.2)))
        match gaussAux fuel rest1 with
        | none => none
        | some xs => some (backSub pn xs :: xs)

/-- Model of `scipy.linalg.solve(A, B)`: a direct dense solve in exact
rational arithmetic, by Gaussian elimination on the augmented matrix;
`none` models the exception raised on a non-square system or a singular
matrix. -/
def gaussSolve (A : List (List ℚ)) (B : List ℚ) : Option (List ℚ) :=
  if A.length = B.length ∧ ∀ r ∈ A, r.length = A.length then
    gaussAux A.length ((A.zip B).map (fun p => p.1 ++ [p.2]))
  else none

/-- Extract the `E × E` matrix rows of the assembly state as lists. -/
def toRows (st : Asm) (E : ℕ) : List (List ℚ) :=
  (List.range E).map (fun r => (List.range E).map (fun co => st.A r co))

/-- Extract the right-hand side of the assembly state as a list. -/
def toB (st : Asm) (E : ℕ) : List ℚ :=
  (List.range E).map (fun r => st.B r)

/-- The source's `find_kg_edges_weights`: assemble the linear system and
solve it for the branch currents (one entry per `kg.edges()` column). -/
def find_kg_edges_weights (c : Circuit) : Option (List ℚ) := do
  let st ← assemble c
  let E := (edgesList c).length
  gaussSolve (toRows st E) (toB st E)

/-- Result of `seperate_const_variable_cycle_and_loop`: the five returned
lists (variable-weight edges, constant-weight edges, constant-weight
cycles, variable-weight cycles, variable-weight cycle indices). -/
structure Part where
  vwe : List (ℕ × ℕ)
  cwe : List (ℕ × ℕ)
  cwc : List (List (ℕ × ℕ))
  vwc : List (List (ℕ × ℕ))
  vwci : List ℕ
  deriving DecidableEq

/-- Whether a traversed pair is a variable-weight (capacitive) branch,
following the spec's words; an absent attribute bundle counts as not
variable (the code would fail there instead). -/
def varB (c : Circuit) (e : ℕ × ℕ) : Bool :=
  match edgeData c e.1 e.2 with
  | some r => decide (r.cap ≠ 0)
  | none => false

/-- A cycle is variable-weight iff it contains at least one
variable-weight branch (the spec's characterization). -/
def cycleHasVar (c : Circuit) (cy : List (ℕ × ℕ)) : Bool :=
  cy.any (varB c)

/-- Inner edge step of the partitioner: canonicalize the pair via
`isstraight`, then file it under constant weight when the capacitance is
zero (de-duplicated), else under variable weight, flagging the cycle. -/
def sepEdge (c : Circuit) (st : Part × Bool) (e : ℕ × ℕ) : Option (Part × Bool) :=
  match edgeData c e.1 e.2 with
  | some r =>
    let t := if isstraight e.1 e.2 (r.org, r.dst) then (e.1, e.2) else (e.2, e.1)
    if r.cap = 0 then
      if t ∈ st.1.cwe then some st
      else some ({ st.1 with cwe := st.1.cwe ++ [t] }, st.2)
    else
      if t ∈ st.1.vwe then some (st.1, true)
      else some ({ st.1 with vwe := st.1.vwe ++ [t] }, true)
  | none => none

/-- Per-cycle step of the partitioner: walk the cycle's edges with
`varicyc = False`, then append the cycle (and its index) to the matching
cycle list. -/
def sepCycle (c : Circuit) (st : Part × ℕ) (cy : List (ℕ × ℕ)) : Option (Part × ℕ) := do
  let r ← cy.foldlM (sepEdge c) (st.1, false)
  if r.2 then
    some ({ r.1 with vwc := r.1.vwc ++ [cy], vwci := r.1.vwci ++ [st.2] }, st.2 + 1)
  else
    some ({ r.1 with cwc := r.1.cwc ++ [cy] }, st.2 + 1)

/-- The source's `seperate_const_variable_cycle_and_loop`: partition the
branches occurring in fundamental cycles and the cycles themselves into
constant-weight and variable-weight groups. -/
def seperate_const_variable (c : Circuit) : Option Part := do
  let r ← (fcl c).foldlM (sepCycle c) (⟨[], [], [], [], []⟩, 0)
  some r.1

/-- `np.delete(rows, idxs, 0)`: remove the rows at the listed positions. -/
def npDeleteRows (rows : List (List ℚ)) (idxs : List ℕ) : List (List ℚ) :=
  ((List.range rows.length).zip rows).filterMap
    (fun p => if p.1 ∈ idxs then none else some p.2)

/-- `np.delete(B, idxs, 0)` on a vector. -/
def npDeleteVec (b : List ℚ) (idxs : List ℕ) : List ℚ :=
  ((List.range b.length).zip b).filterMap
    (fun p => if p.1 ∈ idxs then none else some p.2)

/-- `np.delete(rows, j, 1)`: remove column `j` from every row. -/
def npDeleteCol (rows : List (List ℚ)) (j : ℕ) : List (List ℚ) :=
  rows.map (fun r =>
    ((List.range r.length).zip r).filterMap
      (fun p => if p.1 = j then none else some p.2))

/-- The row-deletion loop of `find_kg_edges_weights_RC`: `for index in e:`
deletes the whole index set `e` once per element of `e` (the loop variable
is unused in the body). -/
def rcRowLoop (rows : List (List ℚ)) (idxs : List ℕ) : List (List ℚ) :=
  idxs.foldl (fun rs _ => npDeleteRows rs idxs) rows

/-- The same repeated deletion applied to `B`. -/
def rcVecLoop (b : List ℚ) (idxs : List ℕ) : List ℚ :=
  idxs.foldl (fun bs _ => npDeleteVec bs idxs) b

/-- The rows of the reduced matrix built by `find_kg_edges_weights_RC` for
circuit `c`, using the module-level global `kg3` for the partition (the
function ignores its own argument there). -/
def rcRowsAfter (c kg3 : Circuit) : Option (List (List ℚ)) := do
  let st ← assemble c
  let E := (edgesList c).length
  let part ← seperate_const_variable kg3
  some (rcRowLoop (toRows st E) part.vwci)

/-- The source's `find_kg_edges_weights_RC`: assemble the full system
exactly as `find_kg_edges_weights` does, then delete the variable-weight
cycle rows (via the repeated-deletion loop) and, for each variable-weight
edge of the global `kg3`, delete the column at its full-enumeration index
from the current matrix, and solve. -/
def find_kg_edges_weights_RC (c kg3 : Circuit) : Option (List ℚ) := do
  let st ← assemble c
  let E := (edgesList c).length
  let part ← seperate_const_variable kg3
  let A0 := rcRowLoop (toRows st E) part.vwci
  let B0 := rcVecLoop (toB st E) part.vwci
  let A1 ← part.vwe.foldlM
    (fun A t => do
      let edin ← get_edge_index kg3 t.1 t.2
      some (npDeleteCol A edin))
    A0
  gaussSolve A1 B0

/-- The source's `circuit_type(kg)`: the function takes `kg` but reads the
attribute values of the module-level global `kg3`, modelled here as a
second argument; the four guarded returns fall through to Python's
implicit `None` when none matches. -/
def circuit_type (kg kg3 : Circuit) : Option String :=
  let svals := (edgesList kg3).filterMap (fun e => (edgeData kg3 e.1 e.2).map (fun r => r.ind))
  let cvals := (edgesList kg3).filterMap (fun e => (edgeData kg3 e.1 e.2).map (fun r => r.cap))
  let contain_self := svals.any (fun v => v ≠ 0)
  let contain_capacitor := cvals.any (fun v => v ≠ 0)
  if !contain_self && !contain_capacitor then some "Ordinary"
  else if !contain_self && contain_capacitor then some "RC"
  else if contain_self && !contain_capacitor then some "RL"
  else if contain_self && contain_capacitor then some "RLC"
  else none

/-- A raw input line of `circuit_parser`: integer node fields as written in
the file (possibly negative or out of range) and the four attributes. -/
structure RawRec where
  org : ℤ
  dst : ℤ
  res : ℚ
  vol : ℚ
  cap : ℚ
  ind : ℚ
  deriving DecidableEq

/-- `numpy` index semantics for `kgam[x][y]`: an index in `[0, n)` is used
as is, an index in `[-n, 0)` silently wraps to `n + x`, anything else
raises `IndexError` (modelled by `none`). -/
def npIdx (n : ℕ) (x : ℤ) : Option ℕ :=
  if 0 ≤ x ∧ x < (n : ℤ) then some x.toNat
  else if -(n : ℤ) ≤ x ∧ x < 0 then some ((n : ℤ) + x).toNat
  else none

/-- Insert-or-overwrite into the attribute dictionary `kgedgatt` keyed by
the raw coordinate pair. -/
def upsert (d : List ((ℤ × ℤ) × RawRec)) (k : ℤ × ℤ) (v : RawRec) :
    List ((ℤ × ℤ) × RawRec) :=
  if d.any (fun p => p.1 = k) then d.map (fun p => if p.1 = k then (k, v) else p)
  else d ++ [(k, v)]

/-- Model of the record loop of `circuit_parser`: fill the adjacency
matrix `kgam` (with `numpy` wrapping for negative indices) and the
attribute dictionary; the only failure is an out-of-range `IndexError`.
No validation of any kind is performed: duplicates silently overwrite. -/
def circuit_parse (n : ℕ) (lines : List RawRec) :
    Option ((ℕ → ℕ → Bool) × List ((ℤ × ℤ) × RawRec)) :=
  lines.foldlM
    (fun st r => do
      let x ← npIdx n r.org
      let y ← npIdx n r.dst
      some ((fun i j => if i = x ∧ j = y then true else st.1 i j),
        upsert st.2 (r.org, r.dst) r))
    ((fun _ _ => false), [])

/-! ## Concrete circuits used by the claims -/

/-- The triangle circuit of the spec's concrete scenario: nodes `{0,1,2}`,
branches `(0,1)` with `R = 1, V = 6`, `(1,2)` and `(2,0)` with `R = 1`,
reference directions as written. -/
def triK : Circuit :=
  ⟨3, [⟨0, 1, 1, 6, 0, 0⟩, ⟨1, 2, 1, 0, 0, 0⟩, ⟨2, 0, 1, 0, 0, 0⟩]⟩

/-- A circuit whose single branch carries a nonzero self-inductance. -/
def rlK : Circuit :=
  ⟨2, [⟨0, 1, 1, 0, 0, 1⟩]⟩

/-- Two triangles sharing node 0; the two co-tree branches `(2,0)` and
`(4,0)` are capacitive, so both fundamental cycles are variable-weight. -/
def twoTriK : Circuit :=
  ⟨5, [⟨0, 1, 1, 6, 0, 0⟩, ⟨1, 2, 1, 0, 0, 0⟩, ⟨2, 0, 1, 0, 1, 0⟩,
       ⟨0, 3, 1, 6, 0, 0⟩, ⟨3, 4, 1, 0, 0, 0⟩, ⟨4, 0, 1, 0, 1, 0⟩]⟩

/-- A triangle with a pendant branch `(2,3)`: the pendant branch is a
bridge, belongs to the spanning tree and to no fundamental cycle. -/
def pendK : Circuit :=
  ⟨4, [⟨0, 1, 1, 6, 0, 0⟩, ⟨1, 2, 1, 0, 0, 0⟩, ⟨2, 0, 1, 0, 0, 0⟩, ⟨2, 3, 1, 0, 0, 0⟩]⟩

/-- A disconnected graph: two branches forming two separate components. -/
def discK : Circuit :=
  ⟨4, [⟨0, 1, 1, 1, 0, 0⟩, ⟨2, 3, 1, 0, 0, 0⟩]⟩

/-! ## Kernel-reducible rational operations agree with the standard ones -/

theorem radd_eq (a b : ℚ) : radd a b = a + b := by
  rw [radd, Rat.add_def, Rat.normalize_eq_mkRat]

theorem rsub_eq (a b : ℚ) : rsub a b = a - b := by
  rw [rsub, Rat.sub_def, Rat.normalize_eq_mkRat]

theorem rmul_eq (a b : ℚ) : rmul a b = a * b := by
  rw [rmul, Rat.mul_def, Rat.normalize_eq_mkRat]

theorem rdiv_eq (a b : ℚ) : rdiv a b = a / b := by
  have hb : ((b.den : ℚ)) ≠ 0 := by
    exact_mod_cast b.den_nz
  have ha : ((a.den : ℚ)) ≠ 0 := by
    exact_mod_cast a.den_nz
  by_cases h0 : b.num = 0
  · have hb0 : b = 0 := by
      have h1 := Rat.num_div_den b
      rw [h0] at h1
      simpa using h1.symm
    subst hb0
    simp [rdiv, Rat.mkRat_eq_div]
  · have hbq : ((b.num : ℚ)) ≠ 0 := by
      exact_mod_cast h0
    have hstep : rdiv a b = ((a.num : ℚ) * (b.den : ℚ)) / ((a.den : ℚ) * (b.num : ℚ)) := by
      rcases lt_or_gt_of_ne h0 with h | h
      · have ht : (((-b.num).toNat : ℕ) : ℚ) = -((b.num : ℚ)) := by
          exact_mod_cast Int.toNat_of_nonneg (by omega : (0:ℤ) ≤ -b.num)
        rw [rdiv, if_pos h, Rat.mkRat_eq_div]
        push_cast [ht]
        rw [div_eq_div_iff (by
            apply mul_ne_zero ha
            simpa using hbq) (mul_ne_zero ha hbq)]
        ring
      · have ht : ((b.num.toNat : ℕ) : ℚ) = ((b.num : ℚ)) := by
          exact_mod_cast Int.toNat_of_nonneg (le_of_lt h)
        rw [rdiv, if_neg (by omega), Rat.mkRat_eq_div]
        push_cast [ht]
        ring
    rw [hstep]
    conv_rhs => rw [← Rat.num_div_den a, ← Rat.num_div_den b]
    field_simp


/-! ## Directly decidable claim theorems -/

/-- Claim C3: on the concrete triangle circuit the pipeline produces
exactly one fundamental cycle, solves the system to a current of 2 A on
every branch (in the `kg.edges()` column order `(0,1), (0,2), (1,2)`),
and — with the module-level graph being this same triangle — classifies
the circuit as Ordinary. -/
theorem C3_triangle_pipeline :
    (fcl triK).length = 1 ∧
    find_kg_edges_weights triK = some [2, 2, 2] ∧
    circuit_type triK triK = some "Ordinary" := by
  refine ⟨by decide, by decide, by decide⟩

/-- Claim C4 is false of the code: `circuit_type` reads the module-level
global `kg3` and ignores its own argument.  Passing the RL circuit while
the global is the Ordinary triangle yields "Ordinary", not "RL"; the same
call with the global set to the RL circuit yields "RL". -/
theorem C4_circuit_type_ignores_argument :
    circuit_type rlK triK = some "Ordinary" ∧
    circuit_type rlK rlK = some "RL" := by
  refine ⟨by decide, by decide⟩

/-- Claim C5 is false of the code: on the two-triangle circuit (6 edges,
2 variable-weight cycles recorded at indices 0 and 1) the reduced system
should keep `6 - 2 = 4` rows, but the row-deletion loop deletes the index
set once per recorded index, leaving only 2 rows, and the subsequent solve
of the non-square system fails. -/
theorem C5_rc_reduction_row_overdeletion :
    (edgesList twoTriK).length = 6 ∧
    (seperate_const_variable twoTriK).map (fun p => p.vwci) = some [0, 1] ∧
    (rcRowsAfter twoTriK twoTriK).map List.length = some 2 ∧
    find_kg_edges_weights_RC twoTriK twoTriK = none := by
  refine ⟨by decide, by decide, by decide, by decide⟩

/-- Claim C6 is false as stated: the pendant branch `(2,3)` of `pendK` is
a branch of the graph, but since it lies on no fundamental cycle the
partitioner places it in neither the constant-weight nor the
variable-weight branch list. -/
theorem C6_pendant_branch_unpartitioned :
    (⟨2, 3, 1, 0, 0, 0⟩ : BranchRec) ∈ pendK.recs ∧
    (seperate_const_variable pendK).map
      (fun p => decide ((2, 3) ∈ p.cwe) || decide ((2, 3) ∈ p.vwe) ||
        decide ((3, 2) ∈ p.cwe) || decide ((3, 2) ∈ p.vwe)) = some false := by
  refine ⟨by decide, by decide⟩

/-- Claim C7 is false of the code: `circuit_parser` performs no
validation.  A record with origin `-1` (outside `[0, nodeCount)`) is
silently wrapped by `numpy` indexing to node `n - 1` and parsing succeeds;
a duplicated unordered pair is silently overwritten (the attribute
dictionary keeps only the second record).  No `FormatError` (or any other
error) is raised in either case. -/
theorem C7_parser_no_validation :
    (circuit_parse 2 [⟨-1, 0, 1, 6, 0, 0⟩]).map (fun p => p.1 1 0) = some true ∧
    (circuit_parse 2 [⟨0, 1, 1, 6, 0, 0⟩, ⟨0, 1, 2, 5, 0, 0⟩]).map
      (fun p => p.2.map (fun q => q.2)) = some [⟨0, 1, 2, 5, 0, 0⟩] := by
  refine ⟨by decide, by decide⟩

/-- Claim C8 is false of the code: on the disconnected two-component
graph the spanning-tree step returns the spanning forest of both edges
without any error (there is no `DisconnectedGraphError` anywhere in the
code), the co-tree is empty, and the failure only surfaces later as the
singular-matrix failure of the solver. -/
theorem C8_disconnected_no_error :
    mstEdges discK = [(0, 1), (2, 3)] ∧
    eled discK = [] ∧
    find_kg_edges_weights discK = none := by
  refine ⟨by decide, by decide, by decide⟩

/-- Claim C9 is half false of the code: looking up a pair that matches no
branch makes `get_edge_index` fall through and return `None` — no
`NotFoundError` is raised; the order-independence half does hold, shown
here on the concrete pair `(2,0)`/`(0,2)` of the triangle. -/
theorem C9_get_edge_index_miss_none :
    get_edge_index triK 0 3 = none ∧
    get_edge_index triK 2 0 = some 1 ∧
    get_edge_index triK 0 2 = some 1 := by
  refine ⟨by decide, by decide, by decide⟩

/-! ## C10: per-iteration independence of the trial structures -/

/-- Outside the slab range touched by the loop, the 3-dimensional array is
unchanged. -/
theorem gl_foldl_frame (m : ℕ → ℕ → Bool) (el : List (ℕ × ℕ)) :
    ∀ (g0 : ℕ → ℕ → ℕ → Bool) (c0 j : ℕ), (j < c0 ∨ c0 + el.length ≤ j) →
      (el.foldl (glStep m) (g0, c0)).1 j = g0 j := by
  induction el with
  | nil =>
    intro g0 c0 j _
    rfl
  | cons e t ih =>
    intro g0 c0 j hj
    have hstep : (glStep m (g0, c0) e) =
        (fun k => if k = c0 then setE (setE m e.1 e.2) e.2 e.1 else g0 k, c0 + 1) := rfl
    rw [List.foldl_cons, hstep]
    have hj2 : j < c0 + 1 ∨ (c0 + 1) + t.length ≤ j := by
      rcases hj with h | h
      · left
        omega
      · right
        simp only [List.length_cons] at h
        omega
    rw [ih _ (c0 + 1) j hj2]
    have hne : j ≠ c0 := by
      rcases hj with h | h
      · omega
      · simp only [List.length_cons] at h
        omega
    simp [hne]

/-- Inside the range, slab `c0 + k` holds the spanning tree plus exactly
the `k`-th co-tree edge. -/
theorem gl_foldl_get (m : ℕ → ℕ → Bool) (el : List (ℕ × ℕ)) :
    ∀ (g0 : ℕ → ℕ → ℕ → Bool) (c0 k : ℕ) (hk : k < el.length),
      (el.foldl (glStep m) (g0, c0)).1 (c0 + k) =
        setE (setE m (el.get ⟨k, hk⟩).1 (el.get ⟨k, hk⟩).2)
          (el.get ⟨k, hk⟩).2 (el.get ⟨k, hk⟩).1 := by
  induction el with
  | nil =>
    intro g0 c0 k hk
    simp at hk
  | cons e t ih =>
    intro g0 c0 k hk
    have hstep : (glStep m (g0, c0) e) =
        (fun j => if j = c0 then setE (setE m e.1 e.2) e.2 e.1 else g0 j, c0 + 1) := rfl
    rw [List.foldl_cons, hstep]
    match k with
    | 0 =>
      rw [gl_foldl_frame m t _ (c0 + 1) (c0 + 0) (by omega)]
      simp
    | k + 1 =>
      have hk2 : k < t.length := by
        simp only [List.length_cons] at hk
        omega
      have harith : c0 + (k + 1) = (c0 + 1) + k := by omega
      rw [harith, ih _ (c0 + 1) k hk2]
      rfl

/-- Claim C10: the `graph_list` loop writes each co-tree edge into an
independently copied slab — one loop step never touches any slab other
than its own (first conjunct), and therefore the finished `i`-th trial
structure is the spanning tree plus exactly its own co-tree edge (second
conjunct). -/
theorem C10_graph_list_independent_copies (m : ℕ → ℕ → Bool) (el : List (ℕ × ℕ)) :
    (∀ (st : (ℕ → ℕ → ℕ → Bool) × ℕ) (e : ℕ × ℕ) (j : ℕ), j ≠ st.2 →
      (glStep m st e).1 j = st.1 j) ∧
    (∀ (k : ℕ) (hk : k < el.length),
      graph_list_am m el k =
        setE (setE m (el.get ⟨k, hk⟩).1 (el.get ⟨k, hk⟩).2)
          (el.get ⟨k, hk⟩).2 (el.get ⟨k, hk⟩).1) := by
  constructor
  · intro st e j hj
    simp [glStep, hj]
  · intro k hk
    have h := gl_foldl_get m el (fun _ _ _ => false) 0 k hk
    simpa [graph_list_am] using h

/-- Witness for C10 at the triangle's spanning tree and its single co-tree
edge `(1,2)`. -/
theorem C10_witness :
    0 < ([((1 : ℕ), (2 : ℕ))] : List (ℕ × ℕ)).length ∧
    graph_list_am (kgmstam triK) [(1, 2)] 0 =
      setE (setE (kgmstam triK) 1 2) 2 1 := by
  refine ⟨by decide, ?_⟩
  exact (C10_graph_list_independent_copies (kgmstam triK) [(1, 2)]).2 0 (by decide)

/-! ## Generic helper lemmas -/

theorem firstSome?_eq_some {α β : Type} {l : List α} {f : α → Option β} {b : β}
    (h : firstSome? l f = some b) : ∃ a ∈ l, f a = some b := by
  induction l with
  | nil => simp [firstSome?] at h
  | cons a t ih =>
    rw [firstSome?] at h
    cases hfa : f a with
    | some v =>
      rw [hfa] at h
      exact ⟨a, by simp, by rw [hfa]; exact h⟩
    | none =>
      rw [hfa] at h
      obtain ⟨x, hx, hfx⟩ := ih h
      exact ⟨x, by simp [hx], hfx⟩

theorem firstSome?_isSome {α β : Type} {l : List α} {f : α → Option β} {a : α}
    (ha : a ∈ l) (hb : (f a).isSome) : (firstSome? l f).isSome := by
  induction l with
  | nil => simp at ha
  | cons x t ih =>
    rw [firstSome?]
    cases hfx : f x with
    | some v => simp
    | none =>
      rcases List.mem_cons.mp ha with h | h
      · subst h
        rw [hfx] at hb
        simp at hb
      · exact ih h

/-! ## Adjacency-structure lemmas -/

theorem kgam_iff (c : Circuit) (i j : ℕ) :
    kgam c i j = true ↔ ∃ r ∈ c.recs, r.org = i ∧ r.dst = j := by
  simp [kgam]

theorem nzList_mem (c : Circuit) (p : ℕ × ℕ) :
    p ∈ nzList c ↔ p.1 < c.n ∧ p.2 < c.n ∧ kgam c p.1 p.2 = true := by
  cases p with
  | mk i j =>
    simp only [nzList, List.mem_flatMap, List.mem_filterMap, List.mem_range]
    constructor
    · rintro ⟨a, ha, b, hb, hab⟩
      by_cases h : kgam c a b
      · rw [if_pos h] at hab
        cases hab
        exact ⟨ha, hb, h⟩
      · rw [if_neg h] at hab
        cases hab
    · rintro ⟨hi, hj, hk⟩
      exact ⟨i, hi, j, hj, by rw [if_pos hk]⟩

theorem addNbr_mem (acc : List ℕ) (v x : ℕ) :
    x ∈ addNbr acc v ↔ x ∈ acc ∨ x = v := by
  unfold addNbr
  by_cases h : v ∈ acc
  · simp only [if_pos h]
    constructor
    · exact Or.inl
    · rintro (hx | rfl)
      · exact hx
      · exact h
  · simp [if_neg h, List.mem_append, or_comm]

theorem addNbr_nodup (acc : List ℕ) (v : ℕ) (h : acc.Nodup) : (addNbr acc v).Nodup := by
  unfold addNbr
  by_cases hv : v ∈ acc
  · simpa [if_pos hv]
  · simp only [if_neg hv]
    simpa [List.nodup_append] using ⟨h, hv⟩

theorem adjList_foldl_mem (u : ℕ) (l : List (ℕ × ℕ)) :
    ∀ (acc : List ℕ) (x : ℕ),
      x ∈ l.foldl
        (fun acc p =>
          if p.1 = u then addNbr acc p.2
          else if p.2 = u then addNbr acc p.1 else acc) acc ↔
      x ∈ acc ∨ ∃ p ∈ l, (p.1 = u ∧ p.2 = x) ∨ (p.2 = u ∧ p.1 = x ∧ p.1 ≠ u) := by
  induction l with
  | nil => simp
  | cons p t ih =>
    intro acc x
    rw [List.foldl_cons]
    by_cases h1 : p.1 = u
    · rw [if_pos h1, ih, addNbr_mem]
      constructor
      · rintro (⟨hx | rfl⟩ | ⟨q, hq, hcase⟩)
        · exact Or.inl hx
        · exact Or.inr ⟨p, by simp, Or.inl ⟨h1, rfl⟩⟩
        · exact Or.inr ⟨q, by simp [hq], hcase⟩
      · rintro (hx | ⟨q, hq, hcase⟩)
        · exact Or.inl (Or.inl hx)
        · rcases List.mem_cons.mp hq with rfl | hq2
          · rcases hcase with ⟨_, rfl⟩ | ⟨h2, rfl, hne⟩
            · exact Or.inl (Or.inr rfl)
            · exact absurd h1 hne
          · exact Or.inr ⟨q, hq2, hcase⟩
    · by_cases h2 : p.2 = u
      · rw [if_neg h1, if_pos h2, ih, addNbr_mem]
        constructor
        · rintro (⟨hx | rfl⟩ | ⟨q, hq, hcase⟩)
          · exact Or.inl hx
          · exact Or.inr ⟨p, by simp, Or.inr ⟨h2, rfl, h1⟩⟩
          · exact Or.inr ⟨q, by simp [hq], hcase⟩
        · rintro (hx | ⟨q, hq, hcase⟩)
          · exact Or.inl (Or.inl hx)
          · rcases List.mem_cons.mp hq with rfl | hq2
            · rcases hcase with ⟨hqu, rfl⟩ | ⟨_, rfl, _⟩
              · exact absurd hqu h1
              · exact Or.inl (Or.inr rfl)
            · exact Or.inr ⟨q, hq2, hcase⟩
      · rw [if_neg h1, if_neg h2, ih]
        constructor
        · rintro (hx | ⟨q, hq, hcase⟩)
          · exact Or.inl hx
          · exact Or.inr ⟨q, by simp [hq], hcase⟩
        · rintro (hx | ⟨q, hq, hcase⟩)
          · exact Or.inl hx
          · rcases List.mem_cons.mp hq with rfl | hq2
            · rcases hcase with ⟨hqu, _⟩ | ⟨hqu, _, _⟩
              · exact absurd hqu h1
              · exact absurd hqu h2
            · exact Or.inr ⟨q, hq2, hcase⟩

theorem adjList_mem (c : Circuit) (u x : ℕ) :
    x ∈ adjList c u ↔
      ∃ p ∈ nzList c, (p.1 = u ∧ p.2 = x) ∨ (p.2 = u ∧ p.1 = x ∧ p.1 ≠ u) := by
  rw [adjList, adjList_foldl_mem]
  simp

theorem Adj.symm {c : Circuit} {u v : ℕ} (h : Adj c u v) : Adj c v u := by
  obtain ⟨r, hr, hc⟩ := h
  exact ⟨r, hr, hc.symm⟩

theorem adjList_iff_Adj (c : Circuit) (hwf : WF c) (u x : ℕ) :
    x ∈ adjList c u ↔ Adj c u x := by
  rw [adjList_mem]
  constructor
  · rintro ⟨p, hp, hcase⟩
    rw [nzList_mem, kgam_iff] at hp
    obtain ⟨_, _, r, hr, h1, h2⟩ := hp
    rcases hcase with ⟨rfl, rfl⟩ | ⟨rfl, rfl, _⟩
    · exact ⟨r, hr, Or.inl ⟨h1, h2⟩⟩
    · exact ⟨r, hr, Or.inr ⟨h1, h2⟩⟩
  · rintro ⟨r, hr, hcase⟩
    have hwfb := hwf.1 r hr
    refine ⟨(r.org, r.dst), ?_, ?_⟩
    · rw [nzList_mem, kgam_iff]
      exact ⟨hwfb.1, hwfb.2.1, r, hr, rfl, rfl⟩
    · rcases hcase with ⟨h1, h2⟩ | ⟨h1, h2⟩
      · exact Or.inl ⟨h1, h2⟩
      · refine Or.inr ⟨h2, h1, ?_⟩
        simp only []
        rw [← h2]
        exact hwfb.2.2

theorem adjList_nodup (c : Circuit) (u : ℕ) : (adjList c u).Nodup := by
  rw [adjList]
  generalize nzList c = l
  have h : ∀ (acc : List ℕ), acc.Nodup →
      (l.foldl
        (fun acc p =>
          if p.1 = u then addNbr acc p.2
          else if p.2 = u then addNbr acc p.1 else acc) acc).Nodup := by
    induction l with
    | nil => intro acc h; exact h
    | cons p t ih =>
      intro acc h
      rw [List.foldl_cons]
      by_cases h1 : p.1 = u
      · rw [if_pos h1]
        exact ih _ (addNbr_nodup _ _ h)
      · by_cases h2 : p.2 = u
        · rw [if_neg h1, if_pos h2]
          exact ih _ (addNbr_nodup _ _ h)
        · rw [if_neg h1, if_neg h2]
          exact ih _ h
  exact h [] List.nodup_nil

theorem edgesList_mem (c : Circuit) (p : ℕ × ℕ) :
    p ∈ edgesList c ↔ p.1 < c.n ∧ p.1 ≤ p.2 ∧ p.2 ∈ adjList c p.1 := by
  cases p with
  | mk u v =>
    simp only [edgesList, List.mem_flatMap, List.mem_map, List.mem_filter, List.mem_range]
    constructor
    · rintro ⟨a, ha, b, ⟨hb1, hb2⟩, hab⟩
      cases hab
      exact ⟨ha, by simpa using hb2, hb1⟩
    · rintro ⟨h1, h2, h3⟩
      exact ⟨u, h1, v, ⟨h3, by simpa using h2⟩, rfl⟩

theorem nodup_flatMap_of {α β : Type} (l : List α) (f : α → List β)
    (hnodup : ∀ a ∈ l, (f a).Nodup)
    (hdisj : ∀ a ∈ l, ∀ b ∈ l, a ≠ b → ∀ x ∈ f a, x ∉ f b)
    (hl : l.Nodup) : (l.flatMap f).Nodup := by
  induction l with
  | nil => simp
  | cons a t ih =>
    rw [List.flatMap_cons, List.nodup_append]
    refine ⟨hnodup a (by simp), ?_, ?_⟩
    · exact ih (fun x hx => hnodup x (by simp [hx]))
        (fun x hx y hy => hdisj x (by simp [hx]) y (by simp [hy]))
        (List.Nodup.of_cons hl)
    · intro x hx
      rw [List.mem_flatMap]
      rintro ⟨b, hb, hxb⟩
      have hab : a ≠ b := by
        rintro rfl
        exact (List.nodup_cons.mp hl).1 hb
      exact hdisj a (by simp) b (by simp [hb]) hab x hx hxb

theorem edgesList_nodup (c : Circuit) : (edgesList c).Nodup := by
  rw [edgesList]
  refine nodup_flatMap_of _ _ ?_ ?_ (List.nodup_range c.n)
  · intro u _
    refine List.Nodup.map ?_ (List.Nodup.filter _ (adjList_nodup c u))
    intro a b hab
    cases hab
    rfl
  · intro a _ b _ hab x hx hxb
    rw [List.mem_map] at hx hxb
    obtain ⟨v1, _, h1⟩ := hx
    obtain ⟨v2, _, h2⟩ := hxb
    rw [← h2] at h1
    cases h1
    exact hab rfl

theorem edgeData_eq_some {c : Circuit} {u v : ℕ} {r : BranchRec}
    (h : edgeData c u v = some r) :
    r ∈ c.recs ∧ ((r.org = u ∧ r.dst = v) ∨ (r.org = v ∧ r.dst = u)) := by
  refine ⟨List.mem_of_find?_eq_some h, ?_⟩
  have hp := List.find?_some h
  simp only [Bool.or_eq_true, Bool.and_eq_true, decide_eq_true_eq] at hp
  exact hp

theorem edgeData_isSome_iff (c : Circuit) (u v : ℕ) :
    (edgeData c u v).isSome ↔ Adj c u v := by
  rw [edgeData, List.find?_isSome]
  simp [Adj]

theorem findIdx?_go_spec {α : Type} {p : α → Bool} :
    ∀ (l : List α) (s i : ℕ), List.findIdx? p l s = some i →
      s ≤ i ∧ ∃ hi : i - s < l.length, p (l.get ⟨i - s, hi⟩) = true := by
  intro l
  induction l with
  | nil =>
    intro s i h
    simp [List.findIdx?] at h
  | cons x xs ih =>
    intro s i h
    rw [List.findIdx?_cons] at h
    by_cases hp : p x = true
    · rw [if_pos hp] at h
      cases h
      exact ⟨le_refl _, by simp, by simpa using hp⟩
    · rw [if_neg hp] at h
      obtain ⟨hsi, hi, hget⟩ := ih (s + 1) i h
      have hlt : i - s < (x :: xs).length := by
        simp only [List.length_cons]
        omega
      refine ⟨by omega, hlt, ?_⟩
      have heq : i - s = (i - (s + 1)) + 1 := by omega
      have hg : (x :: xs).get ⟨i - s, hlt⟩ = xs.get ⟨i - (s + 1), hi⟩ := by
        have h2 : (x :: xs).get ⟨(i - (s + 1)) + 1, by simpa [heq] using hlt⟩ =
            xs.get ⟨i - (s + 1), hi⟩ := by
          simp
        rw [← h2]
        congr 1
        exact Fin.ext heq
      rw [hg]
      exact hget

theorem get_edge_index_eq_some {c : Circuit} {u v : ℕ} {i : ℕ}
    (h : get_edge_index c u v = some i) :
    ∃ hi : i < (edgesList c).length, upEq ((edgesList c).get ⟨i, hi⟩) (u, v) := by
  rw [get_edge_index] at h
  obtain ⟨_, hi, hget⟩ := findIdx?_go_spec (edgesList c) 0 i h
  simp only [Nat.sub_zero] at hi hget
  refine ⟨hi, ?_⟩
  simp only [Bool.or_eq_true, Bool.and_eq_true, decide_eq_true_eq] at hget
  rcases hget with ⟨h1, h2⟩ | ⟨h1, h2⟩
  · exact Or.inl ⟨h1, h2⟩
  · exact Or.inr ⟨h2, h1⟩

theorem upEq_symm {a b : ℕ × ℕ} (h : upEq a b) : upEq b a := by
  rcases h with ⟨h1, h2⟩ | ⟨h1, h2⟩
  · exact Or.inl ⟨h1.symm, h2.symm⟩
  · exact Or.inr ⟨h2.symm, h1.symm⟩

theorem upEq_trans {a b d : ℕ × ℕ} (h1 : upEq a b) (h2 : upEq b d) : upEq a d := by
  rcases h1 with ⟨x1, x2⟩ | ⟨x1, x2⟩ <;> rcases h2 with ⟨y1, y2⟩ | ⟨y1, y2⟩
  · exact Or.inl ⟨x1.trans y1, x2.trans y2⟩
  · exact Or.inr ⟨x1.trans y1, x2.trans y2⟩
  · exact Or.inr ⟨x1.trans y2, x2.trans y1⟩
  · exact Or.inl ⟨x1.trans y2, x2.trans y1⟩

theorem get_edge_index_inj {c : Circuit} {u v x y i : ℕ}
    (h1 : get_edge_index c u v = some i) (h2 : get_edge_index c x y = some i) :
    upEq (u, v) (x, y) := by
  obtain ⟨hi1, hg1⟩ := get_edge_index_eq_some h1
  obtain ⟨hi2, hg2⟩ := get_edge_index_eq_some h2
  exact upEq_trans (upEq_symm hg1) hg2

theorem Adj_lt {c : Circuit} (hwf : WF c) {u v : ℕ} (h : Adj c u v) :
    u < c.n ∧ v < c.n ∧ u ≠ v := by
  obtain ⟨r, hr, hc⟩ := h
  have hwfb := hwf.1 r hr
  rcases hc with ⟨h1, h2⟩ | ⟨h1, h2⟩
  · subst h1
    subst h2
    exact ⟨hwfb.1, hwfb.2.1, hwfb.2.2⟩
  · subst h1
    subst h2
    exact ⟨hwfb.2.1, hwfb.1, (Ne.symm hwfb.2.2)⟩

theorem get_edge_index_isSome (c : Circuit) (hwf : WF c) {u v : ℕ} (h : Adj c u v) :
    (get_edge_index c u v).isSome := by
  rw [get_edge_index, List.findIdx?_isSome, List.any_eq_true]
  obtain ⟨hu, hv, huv⟩ := Adj_lt hwf h
  rcases le_or_lt u v with hle | hlt
  · refine ⟨(u, v), ?_, ?_⟩
    · rw [edgesList_mem]
      exact ⟨hu, hle, (adjList_iff_Adj c hwf u v).mpr h⟩
    · simp
  · refine ⟨(v, u), ?_, ?_⟩
    · rw [edgesList_mem]
      exact ⟨hv, le_of_lt hlt, (adjList_iff_Adj c hwf v u).mpr h.symm⟩
    · simp

/-! ## Depth-first path search: soundness and completeness -/

theorem pathSearch_sound {adj : ℕ → List ℕ} {target : ℕ}
    (hirr : ∀ x, x ∉ adj x) :
    ∀ (fuel : ℕ) (visited : List ℕ) (u : ℕ) (p : List ℕ),
      pathSearch adj target fuel visited u = some p →
      ∃ p2, p = u :: p2 ∧ (∀ x ∈ p2, x ∉ u :: visited) ∧ p.Nodup ∧
        p.getLast? = some target ∧ List.Chain (fun a b => b ∈ adj a) u p2 := by
  intro fuel
  induction fuel with
  | zero =>
    intro _ _ _ h
    simp [pathSearch] at h
  | succ fuel ih =>
    intro visited u p h
    rw [pathSearch] at h
    by_cases hu : u = target
    · rw [if_pos hu] at h
      cases h
      exact ⟨[], rfl, by simp, by simp, by simp [hu], List.Chain.nil⟩
    · rw [if_neg hu] at h
      obtain ⟨v, hv, hfv⟩ := firstSome?_eq_some h
      by_cases hvis : v ∈ visited
      · rw [if_pos hvis] at hfv
        cases hfv
      · rw [if_neg hvis] at hfv
        cases hrec : pathSearch adj target fuel (u :: visited) v with
        | none =>
          rw [hrec] at hfv
          cases hfv
        | some q =>
          rw [hrec, Option.map_some'] at hfv
          obtain ⟨q2, hq, hdisj, hnodup, hlast, hchain⟩ := ih (u :: visited) v q hrec
          have hvu : v ≠ u := fun h => hirr u (h ▸ hv)
          cases hfv
          subst hq
          refine ⟨v :: q2, rfl, ?_, ?_, ?_, ?_⟩
          · intro x hx
            rcases List.mem_cons.mp hx with rfl | hx2
            · intro hcon
              rcases List.mem_cons.mp hcon with h1 | h1
              · exact hvu h1
              · exact hvis h1
            · intro hcon
              have h2 := hdisj x hx2
              rcases List.mem_cons.mp hcon with h1 | h1
              · exact h2 (by simp [h1])
              · exact h2 (by simp [h1])
          · rw [List.nodup_cons]
            refine ⟨?_, hnodup⟩
            intro hcon
            rcases List.mem_cons.mp hcon with h1 | h1
            · exact hvu h1.symm
            · exact (hdisj u h1) (by simp)
          · rw [List.getLast?_cons_cons]
            exact hlast
          · rw [List.chain_cons]
            exact ⟨hv, hchain⟩

theorem pathSearch_complete {adj : ℕ → List ℕ} {target : ℕ} :
    ∀ (l : List ℕ) (u : ℕ) (visited : List ℕ) (fuel : ℕ),
      List.Chain (fun a b => b ∈ adj a) u l → (u :: l).getLast? = some target →
      (u :: l).Nodup → (∀ x ∈ u :: l, x ∉ visited) → l.length < fuel →
      (pathSearch adj target fuel visited u).isSome := by
  intro l
  induction l with
  | nil =>
    intro u visited fuel _ hlast _ _ hfuel
    match fuel with
    | f + 1 =>
      rw [pathSearch]
      have hu : u = target := by simpa using hlast
      rw [if_pos hu]
      simp
  | cons v l2 ih =>
    intro u visited fuel hchain hlast hnodup hdisj hfuel
    match fuel with
    | f + 1 =>
      rw [pathSearch]
      by_cases hu : u = target
      · rw [if_pos hu]
        simp
      · rw [if_neg hu]
        rw [List.chain_cons] at hchain
        apply firstSome?_isSome hchain.1
        have hvnv : v ∉ visited := hdisj v (by simp)
        rw [if_neg hvnv, Option.isSome_map']
        apply ih v (u :: visited) f hchain.2
        · rw [← List.getLast?_cons_cons]
          exact hlast
        · exact List.Nodup.of_cons hnodup
        · intro x hx
          intro hcon
          rcases List.mem_cons.mp hcon with rfl | h1
          · exact (List.nodup_cons.mp hnodup).1 hx
          · exact hdisj x (by simp [hx]) h1
        · simp only [List.length_cons] at hfuel
          omega

theorem chain_dedup {r : ℕ → ℕ → Prop} :
    ∀ (n : ℕ) (l : List ℕ), l.length ≤ n → ∀ (u t : ℕ),
      List.Chain r u l → (u :: l).getLast? = some t →
      ∃ l2, List.Chain r u l2 ∧ (u :: l2).getLast? = some t ∧ (u :: l2).Nodup ∧
        ∀ x ∈ l2, x ∈ l := by
  intro n
  induction n with
  | zero =>
    intro l hl u t hchain hlast
    have : l = [] := List.eq_nil_of_length_eq_zero (by omega)
    subst this
    exact ⟨[], List.Chain.nil, hlast, by simp, by simp⟩
  | succ n ih =>
    intro l hl u t hchain hlast
    by_cases hu : u ∈ l
    · obtain ⟨s, t2, rfl⟩ := List.append_of_mem hu
      have hchain2 : List.Chain r u t2 := (List.chain_split.mp hchain).2
      have hlast2 : (u :: t2).getLast? = some t := by
        have h1 : u :: (s ++ u :: t2) = (u :: s) ++ (u :: t2) := by simp
        rw [h1, List.getLast?_append] at hlast
        simpa using hlast
      have hlen : t2.length ≤ n := by
        simp only [List.length_append, List.length_cons] at hl
        omega
      obtain ⟨l2, h1, h2, h3, h4⟩ := ih t2 hlen u t hchain2 hlast2
      exact ⟨l2, h1, h2, h3, fun x hx => by simp [h4 x hx]⟩
    · match l with
      | [] => exact ⟨[], List.Chain.nil, hlast, by simp, by simp⟩
      | v :: l2 =>
        rw [List.chain_cons] at hchain
        have hlast2 : (v :: l2).getLast? = some t := by
          rw [← List.getLast?_cons_cons]
          exact hlast
        have hlen : l2.length ≤ n := by
          simp only [List.length_cons] at hl
          omega
        obtain ⟨l3, h1, h2, h3, h4⟩ := ih l2 hlen v t hchain.2 hlast2
        refine ⟨v :: l3, List.chain_cons.mpr ⟨hchain.1, h1⟩, ?_, ?_, ?_⟩
        · rw [List.getLast?_cons_cons]
          exact h2
        · rw [List.nodup_cons]
          refine ⟨?_, h3⟩
          intro hcon
          rcases List.mem_cons.mp hcon with rfl | hc
          · exact hu (by simp)
          · exact hu (List.mem_cons.mpr (Or.inr (h4 u hc)))
        · intro x hx
          rcases List.mem_cons.mp hx with rfl | hc
          · simp
          · simp [h4 x hc]

/-! ## Cycle-extraction lemmas -/

theorem edgesOfAdj_mem (n : ℕ) (adj : ℕ → List ℕ) (p : ℕ × ℕ) :
    p ∈ edgesOfAdj n adj ↔ p.1 < n ∧ p.1 ≤ p.2 ∧ p.2 ∈ adj p.1 := by
  cases p with
  | mk u v =>
    simp only [edgesOfAdj, List.mem_flatMap, List.mem_map, List.mem_filter, List.mem_range]
    constructor
    · rintro ⟨a, ha, b, ⟨hb1, hb2⟩, hab⟩
      cases hab
      exact ⟨ha, by simpa using hb2, hb1⟩
    · rintro ⟨h1, h2, h3⟩
      exact ⟨u, h1, v, ⟨h3, by simpa using h2⟩, rfl⟩

theorem removeEdgeAdj_sub (adj : ℕ → List ℕ) (a b u x : ℕ)
    (h : x ∈ removeEdgeAdj adj a b u) : x ∈ adj u := by
  unfold removeEdgeAdj at h
  by_cases h1 : u = a
  · rw [if_pos h1] at h
    subst h1
    exact List.mem_of_mem_filter h
  · rw [if_neg h1] at h
    by_cases h2 : u = b
    · rw [if_pos h2] at h
      subst h2
      exact List.mem_of_mem_filter h
    · rw [if_neg h2] at h
      exact h

theorem toEdgePairs_mem : ∀ (m : List ℕ) (q : ℕ × ℕ), q ∈ toEdgePairs m →
    q.1 ∈ m ∧ q.2 ∈ m := by
  intro m
  induction m with
  | nil =>
    intro q hq
    simp [toEdgePairs] at hq
  | cons a t ih =>
    intro q hq
    match t, hq with
    | [], hq => simp [toEdgePairs] at hq
    | b :: t2, hq =>
      rw [toEdgePairs] at hq
      rcases List.mem_cons.mp hq with rfl | hq2
      · exact ⟨by simp, by simp⟩
      · have h2 := ih q hq2
        exact ⟨by simp [h2.1], by simp [h2.2]⟩

theorem toEdgePairs_chain {r : ℕ → ℕ → Prop} :
    ∀ (l : List ℕ) (u : ℕ), List.Chain r u l →
      ∀ q ∈ toEdgePairs (u :: l), r q.1 q.2 := by
  intro l
  induction l with
  | nil =>
    intro u _ q hq
    simp [toEdgePairs] at hq
  | cons v t ih =>
    intro u hchain q hq
    rw [List.chain_cons] at hchain
    rw [toEdgePairs] at hq
    rcases List.mem_cons.mp hq with rfl | hq2
    · exact hchain.1
    · exact ih v hchain.2 q hq2

theorem toEdgePairs_pairwise :
    ∀ (l : List ℕ) (u : ℕ), (u :: l).Nodup →
      List.Pairwise (fun a b => ¬ upEq a b) (toEdgePairs (u :: l)) := by
  intro l
  induction l with
  | nil =>
    intro u _
    simp [toEdgePairs]
  | cons v t ih =>
    intro u hnodup
    rw [toEdgePairs]
    rw [List.pairwise_cons]
    refine ⟨?_, ih v (List.Nodup.of_cons hnodup)⟩
    intro q hq hup
    obtain ⟨hq1, hq2⟩ := toEdgePairs_mem _ q hq
    have hu : u ∉ v :: t := (List.nodup_cons.mp hnodup).1
    rcases hup with ⟨h1, h2⟩ | ⟨h1, h2⟩
    · apply hu
      have h1x : u = q.1 := h1
      rw [h1x]
      exact hq1
    · apply hu
      have h1x : u = q.2 := h1
      rw [h1x]
      exact hq2

theorem find_cycle_some_spec {n : ℕ} {adj : ℕ → List ℕ} {cy : List (ℕ × ℕ)}
    (h : find_cycle n adj = some cy) :
    ∃ e p, e ∈ edgesOfAdj n adj ∧
      pathSearch (removeEdgeAdj adj e.1 e.2) e.1 (n + 1) [] e.2 = some p ∧
      cy = e :: toEdgePairs p := by
  rw [find_cycle] at h
  obtain ⟨e, he, hfe⟩ := firstSome?_eq_some h
  cases hp : pathSearch (removeEdgeAdj adj e.1 e.2) e.1 (n + 1) [] e.2 with
  | none =>
    rw [hp] at hfe
    cases hfe
  | some p =>
    rw [hp, Option.map_some'] at hfe
    cases hfe
    exact ⟨e, p, he, hp, rfl⟩

/-! ## Trial-graph structure lemmas -/

theorem kgamSym_iff (c : Circuit) (i j : ℕ) :
    kgamSym c i j = true ↔ Adj c i j := by
  simp [kgamSym, Adj]

theorem kruskal_foldl_sub :
    ∀ (es : List (ℕ × ℕ)) (init : (ℕ → ℕ) × List (ℕ × ℕ)) (x : ℕ × ℕ),
      x ∈ (es.foldl kruskalStep init).2 → x ∈ init.2 ∨ x ∈ es := by
  intro es
  induction es with
  | nil =>
    intro init x hx
    exact Or.inl hx
  | cons e t ih =>
    intro init x hx
    rw [List.foldl_cons] at hx
    rcases ih (kruskalStep init e) x hx with h | h
    · unfold kruskalStep at h
      by_cases hc : init.1 e.1 = init.1 e.2
      · rw [if_pos hc] at h
        exact Or.inl h
      · rw [if_neg hc] at h
        simp only [List.mem_append, List.mem_singleton] at h
        rcases h with h | rfl
        · exact Or.inl h
        · exact Or.inr (by simp)
    · exact Or.inr (by simp [h])

theorem mstEdges_sub (c : Circuit) : ∀ x ∈ mstEdges c, x ∈ edgesList c := by
  intro x hx
  rcases kruskal_foldl_sub (edgesList c) (id, []) x hx with h | h
  · simp at h
  · exact h

theorem kgmstam_adj (c : Circuit) (hwf : WF c) {i j : ℕ} (h : kgmstam c i j = true) :
    Adj c i j := by
  rw [kgmstam, Bool.or_eq_true, decide_eq_true_eq, decide_eq_true_eq] at h
  rcases h with h | h
  · have h2 := mstEdges_sub c _ h
    rw [edgesList_mem] at h2
    exact (adjList_iff_Adj c hwf i j).mp h2.2.2
  · have h2 := mstEdges_sub c _ h
    rw [edgesList_mem] at h2
    exact ((adjList_iff_Adj c hwf j i).mp h2.2.2).symm

theorem elim_foldl_mem (am mstam : ℕ → ℕ → Bool) :
    ∀ (ps : List (ℕ × ℕ)) (l0 : List (ℕ × ℕ)) (x : ℕ × ℕ),
      x ∈ ps.foldl (elimStep am mstam) l0 →
      x ∈ l0 ∨ (am x.1 x.2 = true ∧ mstam x.1 x.2 = false) := by
  intro ps
  induction ps with
  | nil =>
    intro l0 x hx
    exact Or.inl hx
  | cons p t ih =>
    intro l0 x hx
    rw [List.foldl_cons] at hx
    rcases ih _ x hx with h | h
    · unfold elimStep at h
      by_cases hc : am p.1 p.2 = true ∧ mstam p.1 p.2 = false ∧ (p.2, p.1) ∉ l0
      · rw [if_pos hc] at h
        simp only [List.mem_append, List.mem_singleton] at h
        rcases h with h | rfl
        · exact Or.inl h
        · exact Or.inr ⟨hc.1, hc.2.1⟩
      · rw [if_neg hc] at h
        exact Or.inl h
    · exact Or.inr h

theorem eled_spec (c : Circuit) {x : ℕ × ℕ} (h : x ∈ eled c) :
    kgamSym c x.1 x.2 = true ∧ kgmstam c x.1 x.2 = false := by
  rcases elim_foldl_mem (kgamSym c) (kgmstam c) (pairsRM c.n) [] x h with h2 | h2
  · simp at h2
  · exact h2

theorem adjOfSym_mem (n : ℕ) (m : ℕ → ℕ → Bool) (u x : ℕ) :
    x ∈ adjOfSym n m u ↔ x < n ∧ m u x = true := by
  simp [adjOfSym, and_comm]

theorem setE_true_iff (m : ℕ → ℕ → Bool) (a b u v : ℕ) :
    setE m a b u v = true ↔ (u = a ∧ v = b) ∨ m u v = true := by
  unfold setE
  by_cases h : u = a ∧ v = b
  · simp [if_pos h, h]
  · simp [if_neg h, h]

theorem gl_mem {c : Circuit} {g : ℕ → List ℕ} (h : g ∈ gl c) :
    ∃ (k : ℕ) (hk : k < (eled c).length),
      g = adjOfSym c.n
        (setE (setE (kgmstam c) ((eled c).get ⟨k, hk⟩).1 ((eled c).get ⟨k, hk⟩).2)
          ((eled c).get ⟨k, hk⟩).2 ((eled c).get ⟨k, hk⟩).1) := by
  rw [gl, List.mem_map] at h
  obtain ⟨k, hk, hg⟩ := h
  rw [List.mem_range] at hk
  refine ⟨k, hk, ?_⟩
  rw [← hg]
  refine congrArg (adjOfSym c.n) ?_
  have h2 := gl_foldl_get (kgmstam c) (eled c) (fun _ _ _ => false) 0 k hk
  simpa [graph_list_am] using h2

theorem trial_adj_Adj (c : Circuit) (hwf : WF c) {g : ℕ → List ℕ} (hg : g ∈ gl c) :
    ∀ u x, x ∈ g u → Adj c u x := by
  obtain ⟨k, hk, rfl⟩ := gl_mem hg
  intro u x hx
  rw [adjOfSym_mem] at hx
  have hx2 := hx.2
  rw [setE_true_iff] at hx2
  have he := eled_spec c (List.get_mem (eled c) k hk)
  rcases hx2 with ⟨rfl, rfl⟩ | hx2
  · exact ((kgamSym_iff c _ _).mp he.1).symm
  · rw [setE_true_iff] at hx2
    rcases hx2 with ⟨rfl, rfl⟩ | hx2
    · exact (kgamSym_iff c _ _).mp he.1
    · exact kgmstam_adj c hwf hx2

theorem trial_adj_irrefl (c : Circuit) (hwf : WF c) {g : ℕ → List ℕ} (hg : g ∈ gl c) :
    ∀ x, x ∉ g x := by
  intro x hx
  exact (Adj_lt hwf (trial_adj_Adj c hwf hg x x hx)).2.2 rfl

theorem removeEdgeAdj_ne (adj : ℕ → List ℕ) (a b u x : ℕ)
    (h : x ∈ removeEdgeAdj adj a b u) : ¬(u = a ∧ x = b) ∧ ¬(u = b ∧ x = a) := by
  unfold removeEdgeAdj at h
  by_cases h1 : u = a
  · rw [if_pos h1] at h
    have hxb : x ≠ b := by
      have h2 := List.of_mem_filter h
      simpa using h2
    constructor
    · rintro ⟨_, rfl⟩
      exact hxb rfl
    · rintro ⟨hub, rfl⟩
      exact hxb (by rw [← h1, hub])
  · rw [if_neg h1] at h
    by_cases h2 : u = b
    · rw [if_pos h2] at h
      have hxa : x ≠ a := by
        have h3 := List.of_mem_filter h
        simpa using h3
      constructor
      · rintro ⟨hua, _⟩
        exact h1 hua
      · rintro ⟨_, rfl⟩
        exact hxa rfl
    · rw [if_neg h2] at h
      constructor
      · rintro ⟨hua, _⟩
        exact h1 hua
      · rintro ⟨hub, _⟩
        exact h2 hub

theorem fcl_mem_spec {c : Circuit} {cy : List (ℕ × ℕ)} (h : cy ∈ fcl c) :
    ∃ g ∈ gl c, find_cycle c.n g = some cy := by
  rw [fcl, find_fundamental_cycles, List.mem_filterMap] at h
  exact h

theorem fcl_cycle_adj (c : Circuit) (hwf : WF c) {cy : List (ℕ × ℕ)} (hcy : cy ∈ fcl c) :
    ∀ q ∈ cy, Adj c q.1 q.2 := by
  obtain ⟨g, hg, hfc⟩ := fcl_mem_spec hcy
  obtain ⟨e, p, he, hp, rfl⟩ := find_cycle_some_spec hfc
  intro q hq
  rcases List.mem_cons.mp hq with rfl | hq2
  · rw [edgesOfAdj_mem] at he
    exact trial_adj_Adj c hwf hg q.1 q.2 he.2.2
  · have hirr : ∀ x, x ∉ removeEdgeAdj g e.1 e.2 x := fun x hx =>
      trial_adj_irrefl c hwf hg x (removeEdgeAdj_sub _ _ _ _ _ hx)
    obtain ⟨p2, rfl, hdisj, hnodup, hlast, hchain⟩ := pathSearch_sound hirr _ _ _ _ hp
    have hr := toEdgePairs_chain _ _ hchain q hq2
    exact trial_adj_Adj c hwf hg q.1 q.2 (removeEdgeAdj_sub _ _ _ _ _ hr)

theorem fcl_cycle_pairwise (c : Circuit) (hwf : WF c) {cy : List (ℕ × ℕ)}
    (hcy : cy ∈ fcl c) : List.Pairwise (fun a b => ¬ upEq a b) cy := by
  obtain ⟨g, hg, hfc⟩ := fcl_mem_spec hcy
  obtain ⟨e, p, he, hp, rfl⟩ := find_cycle_some_spec hfc
  have hirr : ∀ x, x ∉ removeEdgeAdj g e.1 e.2 x := fun x hx =>
    trial_adj_irrefl c hwf hg x (removeEdgeAdj_sub _ _ _ _ _ hx)
  obtain ⟨p2, rfl, hdisj, hnodup, hlast, hchain⟩ := pathSearch_sound hirr _ _ _ _ hp
  rw [List.pairwise_cons]
  refine ⟨?_, toEdgePairs_pairwise _ _ hnodup⟩
  intro q hq hup
  have hr := toEdgePairs_chain _ _ hchain q hq
  have hne := removeEdgeAdj_ne g e.1 e.2 q.1 q.2 hr
  rcases hup with ⟨h1, h2⟩ | ⟨h1, h2⟩
  · exact hne.1 ⟨h1.symm, h2.symm⟩
  · exact hne.2 ⟨h2.symm, h1.symm⟩

theorem fcl_cycle_lookups (c : Circuit) (hwf : WF c) {cy : List (ℕ × ℕ)}
    (hcy : cy ∈ fcl c) :
    ∀ q ∈ cy, (edgeData c q.1 q.2).isSome ∧ (get_edge_index c q.1 q.2).isSome := by
  intro q hq
  have h := fcl_cycle_adj c hwf hcy q hq
  exact ⟨(edgeData_isSome_iff c q.1 q.2).mpr h, get_edge_index_isSome c hwf h⟩

/-! ## KVL assembly lemmas -/

theorem kvlEdge_some {c : Circuit} {row : ℕ} {st : (ℕ → ℕ → ℚ) × ℚ} {e : ℕ × ℕ}
    {out : (ℕ → ℕ → ℚ) × ℚ} (h : kvlEdge c row st e = some out) :
    ∃ r cor, edgeData c e.1 e.2 = some r ∧ get_edge_index c e.1 e.2 = some cor ∧
      out = (updA st.1 row cor
          (if isstraight e.1 e.2 (r.org, r.dst) then -r.res else r.res),
        if isstraight e.1 e.2 (r.org, r.dst) then rsub st.2 r.vol
        else radd st.2 r.vol) := by
  rw [kvlEdge] at h
  cases hd : edgeData c e.1 e.2 with
  | none =>
    rw [hd] at h
    cases h
  | some r =>
    cases hi : get_edge_index c e.1 e.2 with
    | none =>
      rw [hd, hi] at h
      cases h
    | some cor =>
      rw [hd, hi] at h
      have h2 : (if isstraight e.1 e.2 (r.org, r.dst) = true then
          some (updA st.1 row cor (-r.res), rsub st.2 r.vol)
        else some (updA st.1 row cor r.res, radd st.2 r.vol)) = some out := h
      refine ⟨r, cor, rfl, rfl, ?_⟩
      by_cases hs : isstraight e.1 e.2 (r.org, r.dst) = true
      · rw [if_pos hs] at h2
        cases h2
        simp only [if_pos hs]
      · rw [if_neg hs] at h2
        cases h2
        simp only [if_neg hs]

theorem kvlEdge_isSome (c : Circuit) (row : ℕ) (st : (ℕ → ℕ → ℚ) × ℚ) (e : ℕ × ℕ)
    (h1 : (edgeData c e.1 e.2).isSome) (h2 : (get_edge_index c e.1 e.2).isSome) :
    (kvlEdge c row st e).isSome := by
  obtain ⟨r, hr⟩ := Option.isSome_iff_exists.mp h1
  obtain ⟨cor, hcor⟩ := Option.isSome_iff_exists.mp h2
  have hred : kvlEdge c row st e =
      if isstraight e.1 e.2 (r.org, r.dst) = true then
        some (updA st.1 row cor (-r.res), rsub st.2 r.vol)
      else some (updA st.1 row cor r.res, radd st.2 r.vol) := by
    rw [kvlEdge, hr, hcor]
  rw [hred]
  by_cases hs : isstraight e.1 e.2 (r.org, r.dst) = true
  · rw [if_pos hs]
    simp
  · rw [if_neg hs]
    simp

theorem kvl_fold_isSome (c : Circuit) (row : ℕ) :
    ∀ (cy : List (ℕ × ℕ)) (st : (ℕ → ℕ → ℚ) × ℚ),
      (∀ q ∈ cy, (edgeData c q.1 q.2).isSome ∧ (get_edge_index c q.1 q.2).isSome) →
      (cy.foldlM (kvlEdge c row) st).isSome := by
  intro cy
  induction cy with
  | nil =>
    intro st _
    simp
  | cons e t ih =>
    intro st hall
    rw [List.foldlM_cons]
    have h1 := hall e (by simp)
    obtain ⟨st1, hst1⟩ := Option.isSome_iff_exists.mp (kvlEdge_isSome c row st e h1.1 h1.2)
    rw [hst1]
    exact ih st1 (fun q hq => hall q (by simp [hq]))

theorem kvl_fold_frameA (c : Circuit) (row : ℕ) :
    ∀ (cy : List (ℕ × ℕ)) (st out : (ℕ → ℕ → ℚ) × ℚ),
      cy.foldlM (kvlEdge c row) st = some out →
      ∀ i j, i ≠ row → out.1 i j = st.1 i j := by
  intro cy
  induction cy with
  | nil =>
    intro st out h i j _
    cases h
    rfl
  | cons e t ih =>
    intro st out h i j hne
    rw [List.foldlM_cons] at h
    cases hst1 : kvlEdge c row st e with
    | none =>
      rw [hst1] at h
      cases h
    | some st1 =>
      rw [hst1] at h
      rw [ih st1 out h i j hne]
      obtain ⟨r, cor, _, _, hout⟩ := kvlEdge_some hst1
      rw [hout]
      simp only [updA]
      rw [if_neg (by tauto)]

theorem volStep_of_edgeData {c : Circuit} {e : ℕ × ℕ} {r : BranchRec} (s : ℚ)
    (hd : edgeData c e.1 e.2 = some r) :
    volStep c s e =
      if isstraight e.1 e.2 (r.org, r.dst) then s - r.vol else s + r.vol := by
  rw [volStep, hd]

theorem kvl_fold_volsum (c : Circuit) (row : ℕ) :
    ∀ (cy : List (ℕ × ℕ)) (st out : (ℕ → ℕ → ℚ) × ℚ),
      cy.foldlM (kvlEdge c row) st = some out →
      out.2 = cy.foldl (volStep c) st.2 := by
  intro cy
  induction cy with
  | nil =>
    intro st out h
    cases h
    rfl
  | cons e t ih =>
    intro st out h
    rw [List.foldlM_cons] at h
    cases hst1 : kvlEdge c row st e with
    | none =>
      rw [hst1] at h
      cases h
    | some st1 =>
      rw [hst1] at h
      rw [List.foldl_cons, ih st1 out h]
      obtain ⟨r, cor, hd, _, hout⟩ := kvlEdge_some hst1
      have hstep : st1.2 = volStep c st.2 e := by
        rw [volStep_of_edgeData st.2 hd, hout]
        by_cases hs : isstraight e.1 e.2 (r.org, r.dst) = true
        · simp only [if_pos hs]
          exact rsub_eq _ _
        · simp only [if_neg hs]
          exact radd_eq _ _
      rw [hstep]

theorem kvl_fold_col_frame (c : Circuit) (row : ℕ) :
    ∀ (cy : List (ℕ × ℕ)) (st out : (ℕ → ℕ → ℚ) × ℚ),
      cy.foldlM (kvlEdge c row) st = some out →
      ∀ cor0 : ℕ,
        (∀ q ∈ cy, ∀ i, get_edge_index c q.1 q.2 = some i → i ≠ cor0) →
        out.1 row cor0 = st.1 row cor0 := by
  intro cy
  induction cy with
  | nil =>
    intro st out h cor0 _
    cases h
    rfl
  | cons e t ih =>
    intro st out h cor0 hall
    rw [List.foldlM_cons] at h
    cases hst1 : kvlEdge c row st e with
    | none =>
      rw [hst1] at h
      cases h
    | some st1 =>
      rw [hst1] at h
      rw [ih st1 out h cor0 (fun q hq => hall q (by simp [hq]))]
      obtain ⟨r, cor, _, hcor, hout⟩ := kvlEdge_some hst1
      rw [hout]
      simp only [updA]
      rw [if_neg ?_]
      rintro ⟨_, rfl⟩
      exact hall e (by simp) _ hcor rfl

theorem kvl_fold_colA (c : Circuit) (row : ℕ) :
    ∀ (cy : List (ℕ × ℕ)) (st out : (ℕ → ℕ → ℚ) × ℚ),
      cy.foldlM (kvlEdge c row) st = some out →
      List.Pairwise (fun a b => ¬ upEq a b) cy →
      ∀ q ∈ cy, ∀ (r : BranchRec) (cor : ℕ), edgeData c q.1 q.2 = some r →
        get_edge_index c q.1 q.2 = some cor →
        out.1 row cor = (if isstraight q.1 q.2 (r.org, r.dst) then -r.res else r.res) := by
  intro cy
  induction cy with
  | nil =>
    intro st out _ _ q hq
    simp at hq
  | cons e t ih =>
    intro st out h hpw q hq r cor hr hcor
    rw [List.foldlM_cons] at h
    cases hst1 : kvlEdge c row st e with
    | none =>
      rw [hst1] at h
      cases h
    | some st1 =>
      rw [hst1] at h
      rw [List.pairwise_cons] at hpw
      rcases List.mem_cons.mp hq with rfl | hq2
      · obtain ⟨r2, cor2, hr2, hcor2, hout⟩ := kvlEdge_some hst1
        have hreq : r = r2 := by
          rw [hr2] at hr
          cases hr
          rfl
        have hcoreq : cor = cor2 := by
          rw [hcor2] at hcor
          cases hcor
          rfl
        subst hreq
        subst hcoreq
        rw [kvl_fold_col_frame c row t st1 out h cor ?_, hout]
        · simp [updA]
        · intro q2 hq2 i hi
          rintro rfl
          exact hpw.1 q2 hq2 (get_edge_index_inj hcor hi)
      · exact ih st1 out h hpw.2 q hq2 r cor hr hcor

/-! ## Phase-level assembly lemmas -/

theorem kvlCycle_some {c : Circuit} {st : Asm} {cy : List (ℕ × ℕ)} {st1 : Asm}
    (h : kvlCycle c st cy = some st1) :
    ∃ out, cy.foldlM (kvlEdge c st.i) (st.A, 0) = some out ∧
      st1.A = out.1 ∧ st1.B = updB st.B st.i out.2 ∧ st1.i = st.i + 1 := by
  rw [kvlCycle] at h
  cases hout : cy.foldlM (kvlEdge c st.i) (st.A, 0) with
  | none =>
    rw [hout] at h
    cases h
  | some out =>
    rw [hout] at h
    cases h
    exact ⟨out, rfl, rfl, rfl, rfl⟩

theorem kvlCycle_isSome (c : Circuit) (st : Asm) (cy : List (ℕ × ℕ))
    (hall : ∀ q ∈ cy, (edgeData c q.1 q.2).isSome ∧ (get_edge_index c q.1 q.2).isSome) :
    (kvlCycle c st cy).isSome := by
  rw [kvlCycle]
  obtain ⟨out, hout⟩ :=
    Option.isSome_iff_exists.mp (kvl_fold_isSome c st.i cy (st.A, 0) hall)
  rw [hout]
  simp

theorem kvlPhase_foldl_frame (c : Circuit) :
    ∀ (cys : List (List (ℕ × ℕ))) (st st2 : Asm),
      cys.foldlM (kvlCycle c) st = some st2 →
      st2.i = st.i + cys.length ∧
      ∀ i, i < st.i → (∀ j, st2.A i j = st.A i j) ∧ st2.B i = st.B i := by
  intro cys
  induction cys with
  | nil =>
    intro st st2 h
    cases h
    exact ⟨rfl, fun i _ => ⟨fun j => rfl, rfl⟩⟩
  | cons cy t ih =>
    intro st st2 h
    rw [List.foldlM_cons] at h
    cases hst1 : kvlCycle c st cy with
    | none =>
      rw [hst1] at h
      cases h
    | some st1 =>
      rw [hst1] at h
      obtain ⟨out, hout, hA, hB, hi⟩ := kvlCycle_some hst1
      obtain ⟨ih1, ih2⟩ := ih st1 st2 h
      constructor
      · rw [ih1, hi, List.length_cons]
        omega
      · intro i hlt
        have hlt1 : i < st1.i := by omega
        obtain ⟨ihA, ihB⟩ := ih2 i hlt1
        constructor
        · intro j
          rw [ihA j, hA]
          exact kvl_fold_frameA c st.i cy (st.A, 0) out hout i j (by omega)
        · rw [ihB, hB]
          unfold updB
          rw [if_neg (by omega)]

theorem kvlPhase_row (c : Circuit) :
    ∀ (cys : List (List (ℕ × ℕ))) (st st2 : Asm),
      (∀ cy ∈ cys, List.Pairwise (fun a b => ¬ upEq a b) cy) →
      cys.foldlM (kvlCycle c) st = some st2 →
      ∀ (k : ℕ) (hk : k < cys.length),
        st2.B (st.i + k) = specVolsum c (cys.get ⟨k, hk⟩) ∧
        ∀ q ∈ cys.get ⟨k, hk⟩, ∀ (r : BranchRec) (cor : ℕ),
          edgeData c q.1 q.2 = some r → get_edge_index c q.1 q.2 = some cor →
          st2.A (st.i + k) cor =
            (if isstraight q.1 q.2 (r.org, r.dst) then -r.res else r.res) := by
  intro cys
  induction cys with
  | nil =>
    intro st st2 _ _ k hk
    simp at hk
  | cons cy t ih =>
    intro st st2 hpw h k hk
    rw [List.foldlM_cons] at h
    cases hst1 : kvlCycle c st cy with
    | none =>
      rw [hst1] at h
      cases h
    | some st1 =>
      rw [hst1] at h
      obtain ⟨out, hout, hA, hB, hi⟩ := kvlCycle_some hst1
      match k with
      | 0 =>
        obtain ⟨_, hframe⟩ := kvlPhase_foldl_frame c t st1 st2 h
        have hlt : st.i + 0 < st1.i := by omega
        obtain ⟨hfA, hfB⟩ := hframe (st.i + 0) hlt
        constructor
        · rw [hfB, hB]
          unfold updB
          rw [if_pos (by omega)]
          rw [kvl_fold_volsum c st.i cy (st.A, 0) out hout]
          rfl
        · intro q hq r cor hr hcor
          rw [hfA cor, hA]
          exact kvl_fold_colA c st.i cy (st.A, 0) out hout
            (hpw cy (by simp)) q hq r cor hr hcor
      | k + 1 =>
        have hk2 : k < t.length := by
          simp only [List.length_cons] at hk
          omega
        have harith : st.i + (k + 1) = st1.i + k := by omega
        have hres := ih st1 st2 (fun cy2 hcy2 => hpw cy2 (by simp [hcy2])) h k hk2
        rw [harith]
        exact hres

theorem kvlPhase_isSome (c : Circuit) (hwf : WF c) (st : Asm) :
    (kvlPhase c st).isSome := by
  rw [kvlPhase]
  have hall : ∀ cy ∈ fcl c, ∀ q ∈ cy,
      (edgeData c q.1 q.2).isSome ∧ (get_edge_index c q.1 q.2).isSome :=
    fun cy hcy => fcl_cycle_lookups c hwf hcy
  generalize hl : fcl c = l at hall
  clear hl
  induction l generalizing st with
  | nil => simp
  | cons cy t ih =>
    rw [List.foldlM_cons]
    obtain ⟨st1, hst1⟩ := Option.isSome_iff_exists.mp
      (kvlCycle_isSome c st cy (hall cy (by simp)))
    rw [hst1]
    exact ih st1 (fun cy2 hcy2 => hall cy2 (by simp [hcy2]))

/-! ## KCL loop lemmas -/

theorem kcl_fold_frame (c : Circuit) (row : ℕ) :
    ∀ (nbrs : List ℕ) (node : ℕ) (A0 A1 : ℕ → ℕ → ℚ),
      nbrs.foldlM
        (fun A nei =>
          match edgeData c node nei, get_edge_index c node nei with
          | some r, some cor =>
            some (updA A row cor (if isstraight node nei (r.org, r.dst) then -1 else 1))
          | _, _ => none) A0 = some A1 →
      ∀ i j, i ≠ row → A1 i j = A0 i j := by
  intro nbrs
  induction nbrs with
  | nil =>
    intro node A0 A1 h i j _
    cases h
    rfl
  | cons nei t ih =>
    intro node A0 A1 h i j hne
    rw [List.foldlM_cons] at h
    cases hd : edgeData c node nei with
    | none =>
      rw [hd] at h
      cases h
    | some r =>
      cases hcor : get_edge_index c node nei with
      | none =>
        rw [hd, hcor] at h
        cases h
      | some cor =>
        rw [hd, hcor] at h
        have h2 : (t.foldlM
            (fun A nei =>
              match edgeData c node nei, get_edge_index c node nei with
              | some r, some cor =>
                some (updA A row cor (if isstraight node nei (r.org, r.dst) then -1 else 1))
              | _, _ => none)
            (updA A0 row cor (if isstraight node nei (r.org, r.dst) then -1 else 1))) =
            some A1 := h
        rw [ih node _ A1 h2 i j hne]
        unfold updA
        rw [if_neg (by tauto)]

theorem kclNode_some {c : Circuit} {st : Asm} {nd : ℕ} {st1 : Asm}
    (h : kclNode c st nd = some st1) :
    st1.B = st.B ∧ st1.i = st.i + 1 ∧ ∀ i j, i ≠ st.i → st1.A i j = st.A i j := by
  rw [kclNode] at h
  cases hA : (adjList c nd).foldlM
      (fun A nei =>
        match edgeData c nd nei, get_edge_index c nd nei with
        | some r, some cor =>
          some (updA A st.i cor (if isstraight nd nei (r.org, r.dst) then -1 else 1))
        | _, _ => none) st.A with
  | none =>
    rw [hA] at h
    cases h
  | some A1 =>
    rw [hA] at h
    cases h
    exact ⟨rfl, rfl, kcl_fold_frame c st.i (adjList c nd) nd st.A A1 hA⟩

theorem kclNode_isSome (c : Circuit) (hwf : WF c) (st : Asm) (nd : ℕ) :
    (kclNode c st nd).isSome := by
  rw [kclNode]
  have hfold : ∀ (nbrs : List ℕ), (∀ x ∈ nbrs, x ∈ adjList c nd) → ∀ (A0 : ℕ → ℕ → ℚ),
      (nbrs.foldlM
        (fun A nei =>
          match edgeData c nd nei, get_edge_index c nd nei with
          | some r, some cor =>
            some (updA A st.i cor (if isstraight nd nei (r.org, r.dst) then -1 else 1))
          | _, _ => none) A0).isSome := by
    intro nbrs
    induction nbrs with
    | nil =>
      intro _ A0
      simp
    | cons nei t ih =>
      intro hsub A0
      have hadj : Adj c nd nei :=
        (adjList_iff_Adj c hwf nd nei).mp (hsub nei (by simp))
      obtain ⟨r, hr⟩ := Option.isSome_iff_exists.mp ((edgeData_isSome_iff c nd nei).mpr hadj)
      obtain ⟨cor, hcor⟩ := Option.isSome_iff_exists.mp (get_edge_index_isSome c hwf hadj)
      rw [List.foldlM_cons, hr, hcor]
      have h2 := ih (fun x hx => hsub x (by simp [hx]))
        (updA A0 st.i cor (if isstraight nd nei (r.org, r.dst) then -1 else 1))
      exact h2
  obtain ⟨A1, hA1⟩ := Option.isSome_iff_exists.mp (hfold (adjList c nd) (fun x hx => hx) st.A)
  rw [hA1]
  simp

theorem kclLoop_frame (c : Circuit) (E : ℕ) :
    ∀ (nodes : List ℕ) (st st2 : Asm), kclLoop c E st nodes = some st2 →
      st2.B = st.B ∧ st.i ≤ st2.i ∧ ∀ i j, i < st.i → st2.A i j = st.A i j := by
  intro nodes
  induction nodes with
  | nil =>
    intro st st2 h
    cases h
    exact ⟨rfl, le_refl _, fun i j _ => rfl⟩
  | cons nd t ih =>
    intro st st2 h
    rw [kclLoop] at h
    cases hst1 : kclNode c st nd with
    | none =>
      rw [hst1] at h
      cases h
    | some st1 =>
      rw [hst1] at h
      have h2 : (if st1.i = E then some st1 else kclLoop c E st1 t) = some st2 := h
      obtain ⟨hB, hi, hA⟩ := kclNode_some hst1
      by_cases hbreak : st1.i = E
      · rw [if_pos hbreak] at h2
        cases h2
        exact ⟨hB, by omega, fun i j hlt => hA i j (by omega)⟩
      · rw [if_neg hbreak] at h2
        obtain ⟨ihB, ihi, ihA⟩ := ih st1 st2 h2
        refine ⟨ihB.trans hB, by omega, ?_⟩
        intro i j hlt
        rw [ihA i j (by omega)]
        exact hA i j (by omega)

theorem kclLoop_isSome (c : Circuit) (hwf : WF c) (E : ℕ) :
    ∀ (nodes : List ℕ) (st : Asm), (kclLoop c E st nodes).isSome := by
  intro nodes
  induction nodes with
  | nil =>
    intro st
    simp [kclLoop]
  | cons nd t ih =>
    intro st
    rw [kclLoop]
    obtain ⟨st1, hst1⟩ := Option.isSome_iff_exists.mp (kclNode_isSome c hwf st nd)
    rw [hst1]
    show (if st1.i = E then some st1 else kclLoop c E st1 t).isSome = true
    by_cases hbreak : st1.i = E
    · rw [if_pos hbreak]
      simp
    · rw [if_neg hbreak]
      exact ih st1

theorem kclLoop_count (c : Circuit) (E : ℕ) :
    ∀ (nodes : List ℕ) (st st2 : Asm), kclLoop c E st nodes = some st2 →
      st.i < E → E - st.i ≤ nodes.length → st2.i = E := by
  intro nodes
  induction nodes with
  | nil =>
    intro st st2 _ h1 h2
    simp at h2
    omega
  | cons nd t ih =>
    intro st st2 h h1 h2
    rw [kclLoop] at h
    cases hst1 : kclNode c st nd with
    | none =>
      rw [hst1] at h
      cases h
    | some st1 =>
      rw [hst1] at h
      have h3 : (if st1.i = E then some st1 else kclLoop c E st1 t) = some st2 := h
      obtain ⟨_, hi, _⟩ := kclNode_some hst1
      by_cases hbreak : st1.i = E
      · rw [if_pos hbreak] at h3
        cases h3
        exact hbreak
      · rw [if_neg hbreak] at h3
        apply ih st1 st2 h3 (by omega)
        simp only [List.length_cons] at h2
        omega

/-! ## Top-level assembly lemmas and claim C1 -/

theorem assemble_isSome (c : Circuit) (hwf : WF c) : (assemble c).isSome := by
  rw [assemble]
  obtain ⟨st1, hst1⟩ :=
    Option.isSome_iff_exists.mp (kvlPhase_isSome c hwf ⟨fun _ _ => 0, fun _ => 0, 0⟩)
  rw [hst1]
  show (kclLoop c (edgesList c).length st1 (List.range c.n)).isSome = true
  exact kclLoop_isSome c hwf (edgesList c).length (List.range c.n) st1

theorem assemble_some_spec {c : Circuit} {st2 : Asm} (h : assemble c = some st2) :
    ∃ st1, kvlPhase c ⟨fun _ _ => 0, fun _ => 0, 0⟩ = some st1 ∧
      kclLoop c (edgesList c).length st1 (List.range c.n) = some st2 := by
  rw [assemble] at h
  cases hst1 : kvlPhase c ⟨fun _ _ => 0, fun _ => 0, 0⟩ with
  | none =>
    rw [hst1] at h
    cases h
  | some st1 =>
    rw [hst1] at h
    exact ⟨st1, rfl, h⟩

/-- Claim C1: every KVL row assembled by `find_kg_edges_weights` obeys the
sign convention.  For the `k`-th fundamental cycle, walking its
`(org, dst)` sequence: a straight traversal (direction equal to the
branch's `suggested_dir`) writes `A[k][columnOf(branch)] = -resistance`
and decreases the voltage accumulator by the branch's battery, a reversed
traversal writes `+resistance` and increases it; after the walk,
`B[k]` equals the accumulated voltage sum. -/
theorem C1_kvl_row (c : Circuit) (hwf : WF c) (k : ℕ) (hk : k < (fcl c).length) :
    ((assemble c).map (fun st => st.B k)) =
      some (specVolsum c ((fcl c).get ⟨k, hk⟩)) ∧
    ∀ q ∈ (fcl c).get ⟨k, hk⟩, ∀ (r : BranchRec) (cor : ℕ),
      edgeData c q.1 q.2 = some r → get_edge_index c q.1 q.2 = some cor →
      ((assemble c).map (fun st => st.A k cor)) =
        some (if isstraight q.1 q.2 (r.org, r.dst) then -r.res else r.res) := by
  obtain ⟨st2, hst2⟩ := Option.isSome_iff_exists.mp (assemble_isSome c hwf)
  obtain ⟨st1, hst1, hloop⟩ := assemble_some_spec hst2
  have hrow := kvlPhase_row c (fcl c) ⟨fun _ _ => 0, fun _ => 0, 0⟩ st1
    (fun cy hcy => fcl_cycle_pairwise c hwf hcy) hst1 k hk
  have hlen := (kvlPhase_foldl_frame c (fcl c) _ st1 hst1).1
  obtain ⟨hB2, _, hA2⟩ := kclLoop_frame c (edgesList c).length (List.range c.n) st1 st2 hloop
  have hki : k < st1.i := by
    rw [hlen]
    simpa using hk
  constructor
  · rw [hst2, Option.map_some']
    rw [hB2]
    have hB := hrow.1
    simpa using hB
  · intro q hq r cor hr hcor
    rw [hst2, Option.map_some']
    rw [hA2 k cor hki]
    have hA := hrow.2 q hq r cor hr hcor
    simpa using hA

/-- Witness for C1 at the triangle circuit's single fundamental cycle. -/
theorem C1_kvl_row_witness :
    WF triK ∧
    ((assemble triK).map (fun st => st.B 0)) =
      some (specVolsum triK [(0, 1), (1, 2), (2, 0)]) := by
  have h0 : (0 : ℕ) < (fcl triK).length := by decide
  have h := (C1_kvl_row triK (by decide) 0 h0).1
  have hget : (fcl triK).get ⟨0, h0⟩ = [(0, 1), (1, 2), (2, 0)] := rfl
  rw [hget] at h
  exact ⟨by decide, h⟩

/-! ## Kruskal invariants (claim C2) -/

theorem Reach_symm {es : List (ℕ × ℕ)} {x y : ℕ} (h : Reach es x y) : Reach es y x := by
  refine Relation.ReflTransGen.symmetric ?_ h
  intro a b hab
  rcases hab with h2 | h2
  · exact Or.inr h2
  · exact Or.inl h2

theorem Reach_append_left {es es2 : List (ℕ × ℕ)} {x y : ℕ} (h : Reach es x y) :
    Reach (es ++ es2) x y := by
  refine Relation.ReflTransGen.mono ?_ h
  intro a b hab
  rcases hab with h2 | h2
  · exact Or.inl (by simp [h2])
  · exact Or.inr (by simp [h2])

theorem kruskal_step_inv {s : (ℕ → ℕ) × List (ℕ × ℕ)} {e : ℕ × ℕ}
    (hinv : ∀ x y, s.1 x = s.1 y ↔ Reach s.2 x y) :
    ∀ x y, (kruskalStep s e).1 x = (kruskalStep s e).1 y ↔
      Reach (kruskalStep s e).2 x y := by
  intro x y
  unfold kruskalStep
  by_cases hc : s.1 e.1 = s.1 e.2
  · rw [if_pos hc]
    exact hinv x y
  · rw [if_neg hc]
    simp only []
    have hnew : Reach (s.2 ++ [e]) e.1 e.2 :=
      Relation.ReflTransGen.single (Or.inl (by simp))
    constructor
    · intro h
      by_cases hx : s.1 x = s.1 e.1 <;> by_cases hy : s.1 y = s.1 e.1
      · exact Reach_append_left ((hinv x y).mp (hx.trans hy.symm))
      · rw [if_pos hx, if_neg hy] at h
        have h1 : Reach s.2 x e.1 := (hinv x e.1).mp hx
        have h2 : Reach s.2 e.2 y := (hinv e.2 y).mp h
        exact ((Reach_append_left h1).trans hnew).trans (Reach_append_left h2)
      · rw [if_neg hx, if_pos hy] at h
        have h1 : Reach s.2 x e.2 := (hinv x e.2).mp h
        have h2 : Reach s.2 e.1 y := (hinv e.1 y).mp hy.symm
        exact ((Reach_append_left h1).trans (Reach_symm hnew)).trans (Reach_append_left h2)
      · rw [if_neg hx, if_neg hy] at h
        exact Reach_append_left ((hinv x y).mp h)
    · intro h
      induction h with
      | refl => rfl
      | @tail b d hxb hbd ih =>
        have hstep : (if s.1 b = s.1 e.1 then s.1 e.2 else s.1 b) =
            (if s.1 d = s.1 e.1 then s.1 e.2 else s.1 d) := by
          rcases hbd with h2 | h2
          · rw [List.mem_append] at h2
            rcases h2 with h3 | h3
            · have hb : s.1 b = s.1 d := (hinv b d).mpr (Relation.ReflTransGen.single (Or.inl h3))
              rw [hb]
            · simp only [List.mem_singleton] at h3
              have hb : b = e.1 ∧ d = e.2 := by
                rw [Prod.ext_iff] at h3
                exact ⟨h3.1, h3.2⟩
              rw [hb.1, hb.2, if_pos rfl, ite_self]
          · rw [List.mem_append] at h2
            rcases h2 with h3 | h3
            · have hb : s.1 d = s.1 b := (hinv d b).mpr (Relation.ReflTransGen.single (Or.inl h3))
              rw [hb]
            · simp only [List.mem_singleton] at h3
              have hb : d = e.1 ∧ b = e.2 := by
                rw [Prod.ext_iff] at h3
                exact ⟨h3.1, h3.2⟩
              rw [hb.1, hb.2, if_pos rfl, ite_self]
        exact ih.trans hstep

theorem kruskal_foldl_inv :
    ∀ (es : List (ℕ × ℕ)) (s : (ℕ → ℕ) × List (ℕ × ℕ)),
      (∀ x y, s.1 x = s.1 y ↔ Reach s.2 x y) →
      ∀ x y, (es.foldl kruskalStep s).1 x = (es.foldl kruskalStep s).1 y ↔
        Reach (es.foldl kruskalStep s).2 x y := by
  intro es
  induction es with
  | nil =>
    intro s hinv
    exact hinv
  | cons e t ih =>
    intro s hinv
    rw [List.foldl_cons]
    exact ih (kruskalStep s e) (kruskal_step_inv hinv)

theorem kruskal_run_inv (es : List (ℕ × ℕ)) :
    ∀ x y, (kruskalRun es).1 x = (kruskalRun es).1 y ↔ Reach (kruskalRun es).2 x y := by
  apply kruskal_foldl_inv
  intro x y
  constructor
  · intro h
    simp only [id_eq] at h
    subst h
    exact Relation.ReflTransGen.refl
  · intro h
    induction h with
    | refl => rfl
    | tail _ hbd ih =>
      rcases hbd with h2 | h2 <;> simp at h2

theorem kruskal_lab_mono :
    ∀ (es : List (ℕ × ℕ)) (s : (ℕ → ℕ) × List (ℕ × ℕ)) (x y : ℕ),
      s.1 x = s.1 y → (es.foldl kruskalStep s).1 x = (es.foldl kruskalStep s).1 y := by
  intro es
  induction es with
  | nil =>
    intro s x y h
    exact h
  | cons e t ih =>
    intro s x y h
    rw [List.foldl_cons]
    apply ih
    unfold kruskalStep
    by_cases hc : s.1 e.1 = s.1 e.2
    · rw [if_pos hc]
      exact h
    · rw [if_neg hc]
      simp only [h]

theorem kruskal_edge_lab :
    ∀ (es : List (ℕ × ℕ)) (s : (ℕ → ℕ) × List (ℕ × ℕ)),
      ∀ e ∈ es, (es.foldl kruskalStep s).1 e.1 = (es.foldl kruskalStep s).1 e.2 := by
  intro es
  induction es with
  | nil =>
    intro s e he
    simp at he
  | cons p t ih =>
    intro s e he
    rw [List.foldl_cons]
    rcases List.mem_cons.mp he with rfl | he2
    · apply kruskal_lab_mono
      unfold kruskalStep
      by_cases hc : s.1 e.1 = s.1 e.2
      · rw [if_pos hc]
        exact hc
      · rw [if_neg hc]
        simp [ite_self]
    · exact ih (kruskalStep s p) e he2

theorem reach_lab (es : List (ℕ × ℕ)) {x y : ℕ} (h : Reach es x y) :
    (kruskalRun es).1 x = (kruskalRun es).1 y := by
  induction h with
  | refl => rfl
  | @tail b d hxb hbd ih =>
    refine ih.trans ?_
    rcases hbd with h2 | h2
    · exact kruskal_edge_lab es (id, []) _ h2
    · exact (kruskal_edge_lab es (id, []) _ h2).symm

theorem reach_of_lab {es : List (ℕ × ℕ)} {x y : ℕ}
    (h : (kruskalRun es).1 x = (kruskalRun es).1 y) :
    Reach es x y := by
  have h2 := (kruskal_run_inv es x y).mp h
  refine Relation.ReflTransGen.mono ?_ h2
  intro a b hab
  have hsub : ∀ z ∈ (kruskalRun es).2, z ∈ es := by
    intro z hz
    rcases kruskal_foldl_sub es (id, []) z hz with h3 | h3
    · simp at h3
    · exact h3
  rcases hab with h3 | h3
  · exact Or.inl (hsub _ h3)
  · exact Or.inr (hsub _ h3)

theorem kruskal_step_count (n : ℕ) (s : (ℕ → ℕ) × List (ℕ × ℕ)) (e : ℕ × ℕ)
    (he1 : e.1 < n) (he2 : e.2 < n) :
    (Finset.image (kruskalStep s e).1 (Finset.range n)).card + (kruskalStep s e).2.length =
    (Finset.image s.1 (Finset.range n)).card + s.2.length := by
  unfold kruskalStep
  by_cases hc : s.1 e.1 = s.1 e.2
  · rw [if_pos hc]
  · rw [if_neg hc]
    simp only [List.length_append, List.length_cons, List.length_nil]
    have himg : Finset.image (fun x => if s.1 x = s.1 e.1 then s.1 e.2 else s.1 x)
        (Finset.range n) = (Finset.image s.1 (Finset.range n)).erase (s.1 e.1) := by
      ext y
      simp only [Finset.mem_image, Finset.mem_erase, Finset.mem_range]
      constructor
      · rintro ⟨x, hx, rfl⟩
        by_cases hxe : s.1 x = s.1 e.1
        · rw [if_pos hxe]
          exact ⟨fun hcon => hc hcon.symm, e.2, he2, rfl⟩
        · rw [if_neg hxe]
          exact ⟨hxe, x, hx, rfl⟩
      · rintro ⟨hy, x, hx, rfl⟩
        refine ⟨x, hx, ?_⟩
        rw [if_neg hy]
    rw [himg, Finset.card_erase_of_mem (Finset.mem_image_of_mem s.1 (Finset.mem_range.mpr he1))]
    have hpos : 0 < (Finset.image s.1 (Finset.range n)).card := by
      refine Finset.card_pos.mpr ⟨s.1 e.1, ?_⟩
      exact Finset.mem_image_of_mem s.1 (Finset.mem_range.mpr he1)
    omega

theorem kruskal_foldl_count (n : ℕ) :
    ∀ (es : List (ℕ × ℕ)), (∀ e ∈ es, e.1 < n ∧ e.2 < n) →
      ∀ s : (ℕ → ℕ) × List (ℕ × ℕ),
      (Finset.image (es.foldl kruskalStep s).1 (Finset.range n)).card
        + (es.foldl kruskalStep s).2.length =
      (Finset.image s.1 (Finset.range n)).card + s.2.length := by
  intro es
  induction es with
  | nil =>
    intro _ s
    rfl
  | cons e t ih =>
    intro hb s
    rw [List.foldl_cons]
    rw [ih (fun x hx => hb x (by simp [hx])) (kruskalStep s e)]
    exact kruskal_step_count n s e (hb e (by simp)).1 (hb e (by simp)).2

theorem adjList_bound (c : Circuit) {u v : ℕ} (h : v ∈ adjList c u) : v < c.n ∧ u < c.n := by
  rw [adjList_mem] at h
  obtain ⟨p, hp, hcase⟩ := h
  rw [nzList_mem] at hp
  rcases hcase with ⟨h1, h2⟩ | ⟨h1, h2, _⟩
  · subst h1
    subst h2
    exact ⟨hp.2.1, hp.1⟩
  · subst h1
    subst h2
    exact ⟨hp.1, hp.2.1⟩

theorem edgesList_bounds (c : Circuit) : ∀ e ∈ edgesList c, e.1 < c.n ∧ e.2 < c.n := by
  intro e he
  rw [edgesList_mem] at he
  exact ⟨he.1, (adjList_bound c he.2.2).1⟩

theorem mstEdges_length (c : Circuit)
    (hconn : ∀ x, x < c.n → ∀ y, y < c.n → Reach (edgesList c) x y) (hn : 1 ≤ c.n) :
    (mstEdges c).length + 1 = c.n := by
  have hcount := kruskal_foldl_count c.n (edgesList c) (edgesList_bounds c) (id, [])
  have hinit : (Finset.image (id, ([] : List (ℕ × ℕ))).1 (Finset.range c.n)).card = c.n := by
    simp
  rw [hinit] at hcount
  simp only [List.length_nil, Nat.add_zero] at hcount
  have himg : (Finset.image (kruskalRun (edgesList c)).1 (Finset.range c.n)).card = 1 := by
    rw [Finset.card_eq_one]
    refine ⟨(kruskalRun (edgesList c)).1 0, ?_⟩
    ext y
    simp only [Finset.mem_image, Finset.mem_range, Finset.mem_singleton]
    constructor
    · rintro ⟨x, hx, rfl⟩
      exact reach_lab (edgesList c) (hconn x hx 0 (by omega))
    · rintro rfl
      exact ⟨0, by omega, rfl⟩
  rw [kruskalRun] at himg
  rw [himg] at hcount
  rw [mstEdges, kruskalRun]
  omega

/-! ## Characterization of `Eliminated_Edges` -/

theorem foldl_flatMap_eq {α β γ : Type} (g : α → List β) (f : γ → β → γ) :
    ∀ (l : List α) (init : γ),
      (l.flatMap g).foldl f init = l.foldl (fun acc a => (g a).foldl f acc) init := by
  intro l
  induction l with
  | nil =>
    intro init
    rfl
  | cons a t ih =>
    intro init
    rw [List.flatMap_cons, List.foldl_append, List.foldl_cons, ih]

theorem elim_step_char (am mstam : ℕ → ℕ → Bool)
    (hsymA : ∀ a b, am a b = am b a) (hsymM : ∀ a b, mstam a b = mstam b a)
    (hirr : ∀ a, am a a = false) {n i : ℕ} (hi : i < n) (j : ℕ) (hj : j < n)
    (P : List ℕ) (hjP : j ∉ P) (l : List (ℕ × ℕ))
    (hchar : ∀ x : ℕ × ℕ, x ∈ l ↔ (x.1 < x.2 ∧ am x.1 x.2 = true ∧ mstam x.1 x.2 = false ∧
      ((x.1 < i ∧ x.2 < n) ∨ (x.1 = i ∧ x.2 ∈ P)))) (hnodup : l.Nodup) :
    (∀ x : ℕ × ℕ, x ∈ elimStep am mstam l (i, j) ↔
      (x.1 < x.2 ∧ am x.1 x.2 = true ∧ mstam x.1 x.2 = false ∧
        ((x.1 < i ∧ x.2 < n) ∨ (x.1 = i ∧ x.2 ∈ P ++ [j])))) ∧
    (elimStep am mstam l (i, j)).Nodup := by
  have hmemPj : ∀ (x : ℕ × ℕ), x.1 < x.2 →
      (((x.1 < i ∧ x.2 < n) ∨ (x.1 = i ∧ x.2 ∈ P ++ [j])) ↔
      (((x.1 < i ∧ x.2 < n) ∨ (x.1 = i ∧ x.2 ∈ P)) ∨ (x = (i, j)))) := by
    intro x hlt
    simp only [List.mem_append, List.mem_singleton]
    constructor
    · rintro (h | ⟨h1, (h2 | h2)⟩)
      · exact Or.inl (Or.inl h)
      · exact Or.inl (Or.inr ⟨h1, h2⟩)
      · right
        rw [Prod.ext_iff]
        exact ⟨h1, h2⟩
    · rintro ((h | ⟨h1, h2⟩) | h)
      · exact Or.inl h
      · exact Or.inr ⟨h1, Or.inl h2⟩
      · rw [Prod.ext_iff] at h
        exact Or.inr ⟨h.1, Or.inr h.2⟩
  rcases lt_trichotomy j i with hji | hji | hji
  · -- mate (j, i) already recorded (or the condition fails): nothing is appended
    have hstep : elimStep am mstam l (i, j) = l := by
      unfold elimStep
      rw [if_neg ?_]
      rintro ⟨h1, h2, h3⟩
      apply h3
      rw [hchar]
      refine ⟨hji, ?_, ?_, Or.inl ⟨hji, hi⟩⟩
      · rw [hsymA]
        exact h1
      · rw [hsymM]
        exact h2
    rw [hstep]
    refine ⟨?_, hnodup⟩
    intro x
    rw [hchar x]
    constructor
    · rintro ⟨ha, hb, hc, hd⟩
      refine ⟨ha, hb, hc, ?_⟩
      rcases hd with h | ⟨h1, h2⟩
      · exact Or.inl h
      · exact Or.inr ⟨h1, by simp [h2]⟩
    · rintro ⟨ha, hb, hc, hd⟩
      refine ⟨ha, hb, hc, ?_⟩
      rcases hd with h | ⟨h1, h2⟩
      · exact Or.inl h
      · simp only [List.mem_append, List.mem_singleton] at h2
        rcases h2 with h2 | rfl
        · exact Or.inr ⟨h1, h2⟩
        · omega
  · -- diagonal entry: the adjacency matrix is zero there
    have hstep : elimStep am mstam l (i, j) = l := by
      unfold elimStep
      rw [if_neg ?_]
      rintro ⟨h1, _, _⟩
      rw [hji, hirr] at h1
      cases h1
    rw [hstep]
    refine ⟨?_, hnodup⟩
    intro x
    rw [hchar x]
    constructor
    · rintro ⟨ha, hb, hc, hd⟩
      refine ⟨ha, hb, hc, ?_⟩
      rcases hd with h | ⟨h1, h2⟩
      · exact Or.inl h
      · exact Or.inr ⟨h1, by simp [h2]⟩
    · rintro ⟨ha, hb, hc, hd⟩
      refine ⟨ha, hb, hc, ?_⟩
      rcases hd with h | ⟨h1, h2⟩
      · exact Or.inl h
      · simp only [List.mem_append, List.mem_singleton] at h2
        rcases h2 with h2 | rfl
        · exact Or.inr ⟨h1, h2⟩
        · omega
  · -- fresh co-tree candidate: appended exactly when the condition holds
    have hmate : ((j, i) : ℕ × ℕ) ∉ l := by
      rw [hchar]
      rintro ⟨h1, _, _, _⟩
      simp only [] at h1
      omega
    have hself : ((i, j) : ℕ × ℕ) ∉ l := by
      rw [hchar]
      rintro ⟨_, _, _, (h | ⟨_, h⟩)⟩
      · omega
      · exact hjP h
    by_cases hcond : am i j = true ∧ mstam i j = false
    · have hstep : elimStep am mstam l (i, j) = l ++ [(i, j)] := by
        unfold elimStep
        rw [if_pos ⟨hcond.1, hcond.2, hmate⟩]
      rw [hstep]
      constructor
      · intro x
        rw [List.mem_append, List.mem_singleton, hchar x]
        constructor
        · rintro (⟨ha, hb, hc, hd⟩ | rfl)
          · exact ⟨ha, hb, hc, ((hmemPj x ha).mpr (Or.inl hd))⟩
          · exact ⟨hji, hcond.1, hcond.2, Or.inr ⟨rfl, by simp⟩⟩
        · rintro ⟨ha, hb, hc, hd⟩
          rcases (hmemPj x ha).mp hd with h | h
          · exact Or.inl ⟨ha, hb, hc, h⟩
          · exact Or.inr h
      · rw [List.nodup_append]
        exact ⟨hnodup, List.nodup_singleton _, by simpa using hself⟩
    · have hstep : elimStep am mstam l (i, j) = l := by
        unfold elimStep
        rw [if_neg ?_]
        rintro ⟨h1, h2, _⟩
        exact hcond ⟨h1, h2⟩
      rw [hstep]
      refine ⟨?_, hnodup⟩
      intro x
      rw [hchar x]
      constructor
      · rintro ⟨ha, hb, hc, hd⟩
        exact ⟨ha, hb, hc, (hmemPj x ha).mpr (Or.inl hd)⟩
      · rintro ⟨ha, hb, hc, hd⟩
        rcases (hmemPj x ha).mp hd with h | h
        · exact ⟨ha, hb, hc, h⟩
        · rw [h] at hb hc
          simp only [] at hb hc
          exact absurd ⟨hb, hc⟩ hcond

theorem elim_row_fold (am mstam : ℕ → ℕ → Bool)
    (hsymA : ∀ a b, am a b = am b a) (hsymM : ∀ a b, mstam a b = mstam b a)
    (hirr : ∀ a, am a a = false) {n i : ℕ} (hi : i < n) :
    ∀ (js : List ℕ) (P : List ℕ) (l : List (ℕ × ℕ)),
      (∀ j ∈ js, j < n ∧ j ∉ P) → js.Nodup →
      (∀ x : ℕ × ℕ, x ∈ l ↔ (x.1 < x.2 ∧ am x.1 x.2 = true ∧ mstam x.1 x.2 = false ∧
        ((x.1 < i ∧ x.2 < n) ∨ (x.1 = i ∧ x.2 ∈ P)))) → l.Nodup →
      (∀ x : ℕ × ℕ, x ∈ js.foldl (fun acc j => elimStep am mstam acc (i, j)) l ↔
        (x.1 < x.2 ∧ am x.1 x.2 = true ∧ mstam x.1 x.2 = false ∧
          ((x.1 < i ∧ x.2 < n) ∨ (x.1 = i ∧ x.2 ∈ P ++ js)))) ∧
      (js.foldl (fun acc j => elimStep am mstam acc (i, j)) l).Nodup := by
  intro js
  induction js with
  | nil =>
    intro P l _ _ hchar hnodup
    refine ⟨?_, hnodup⟩
    intro x
    rw [List.foldl_nil, hchar x]
    rw [List.append_nil]
  | cons j js ih =>
    intro P l hjs hnodupjs hchar hnodup
    rw [List.foldl_cons]
    have hj := hjs j (by simp)
    obtain ⟨hchar2, hnodup2⟩ :=
      elim_step_char am mstam hsymA hsymM hirr hi j hj.1 P hj.2 l hchar hnodup
    have hjs2 : ∀ x ∈ js, x < n ∧ x ∉ P ++ [j] := by
      intro x hx
      refine ⟨(hjs x (by simp [hx])).1, ?_⟩
      rw [List.mem_append, List.mem_singleton]
      rintro (h | rfl)
      · exact (hjs x (by simp [hx])).2 h
      · exact (List.nodup_cons.mp hnodupjs).1 hx
    obtain ⟨hchar3, hnodup3⟩ := ih (P ++ [j]) _ hjs2 (List.Nodup.of_cons hnodupjs)
      hchar2 hnodup2
    refine ⟨?_, hnodup3⟩
    intro x
    rw [hchar3 x, List.append_assoc, List.singleton_append]

theorem elim_outer (am mstam : ℕ → ℕ → Bool)
    (hsymA : ∀ a b, am a b = am b a) (hsymM : ∀ a b, mstam a b = mstam b a)
    (hirr : ∀ a, am a a = false) (n : ℕ) :
    ∀ m, m ≤ n →
      (∀ x : ℕ × ℕ, x ∈ (List.range m).foldl
          (fun acc i => (List.range n).foldl
            (fun acc2 j => elimStep am mstam acc2 (i, j)) acc) [] ↔
        (x.1 < x.2 ∧ am x.1 x.2 = true ∧ mstam x.1 x.2 = false ∧ x.1 < m ∧ x.2 < n)) ∧
      ((List.range m).foldl
          (fun acc i => (List.range n).foldl
            (fun acc2 j => elimStep am mstam acc2 (i, j)) acc) []).Nodup := by
  intro m
  induction m with
  | zero =>
    intro _
    refine ⟨?_, by simp⟩
    intro x
    simp
  | succ m ih =>
    intro hm
    obtain ⟨ihchar, ihnodup⟩ := ih (by omega)
    rw [List.range_succ, List.foldl_append, List.foldl_cons, List.foldl_nil]
    have hchar0 : ∀ x : ℕ × ℕ, x ∈ (List.range m).foldl
        (fun acc i => (List.range n).foldl
          (fun acc2 j => elimStep am mstam acc2 (i, j)) acc) [] ↔
        (x.1 < x.2 ∧ am x.1 x.2 = true ∧ mstam x.1 x.2 = false ∧
          ((x.1 < m ∧ x.2 < n) ∨ (x.1 = m ∧ x.2 ∈ ([] : List ℕ)))) := by
      intro x
      rw [ihchar x]
      constructor
      · rintro ⟨h1, h2, h3, h4, h5⟩
        exact ⟨h1, h2, h3, Or.inl ⟨h4, h5⟩⟩
      · rintro ⟨h1, h2, h3, (⟨h4, h5⟩ | ⟨_, h5⟩)⟩
        · exact ⟨h1, h2, h3, h4, h5⟩
        · simp at h5
    obtain ⟨hchar, hnodup⟩ := elim_row_fold am mstam hsymA hsymM hirr
      (by omega : m < n) (List.range n) [] _
      (fun j hj => ⟨List.mem_range.mp hj, by simp⟩) (List.nodup_range n)
      hchar0 ihnodup
    refine ⟨?_, hnodup⟩
    intro x
    rw [hchar x]
    constructor
    · rintro ⟨h1, h2, h3, (⟨h4, h5⟩ | ⟨h4, h5⟩)⟩
      · exact ⟨h1, h2, h3, by omega, h5⟩
      · simp only [List.nil_append, List.mem_range] at h5
        exact ⟨h1, h2, h3, by omega, h5⟩
    · rintro ⟨h1, h2, h3, h4, h5⟩
      refine ⟨h1, h2, h3, ?_⟩
      by_cases hx : x.1 < m
      · exact Or.inl ⟨hx, h5⟩
      · refine Or.inr ⟨by omega, ?_⟩
        simp only [List.nil_append, List.mem_range]
        exact h5

theorem Eliminated_char (am mstam : ℕ → ℕ → Bool)
    (hsymA : ∀ a b, am a b = am b a) (hsymM : ∀ a b, mstam a b = mstam b a)
    (hirr : ∀ a, am a a = false) (n : ℕ) :
    (∀ x : ℕ × ℕ, x ∈ Eliminated_Edges n am mstam ↔
      (x.1 < x.2 ∧ am x.1 x.2 = true ∧ mstam x.1 x.2 = false ∧ x.1 < n ∧ x.2 < n)) ∧
    (Eliminated_Edges n am mstam).Nodup := by
  have heq : Eliminated_Edges n am mstam = (List.range n).foldl
      (fun acc i => (List.range n).foldl
        (fun acc2 j => elimStep am mstam acc2 (i, j)) acc) [] := by
    rw [Eliminated_Edges, pairsRM, foldl_flatMap_eq]
    congr 1
    funext acc i
    rw [List.foldl_map]
  rw [heq]
  exact elim_outer am mstam hsymA hsymM hirr n n (le_refl n)

theorem kgamSym_symm (c : Circuit) (i j : ℕ) : kgamSym c i j = kgamSym c j i := by
  by_cases h : Adj c i j
  · rw [(kgamSym_iff c i j).mpr h, (kgamSym_iff c j i).mpr h.symm]
  · have h1 : kgamSym c i j = false := by
      rw [← Bool.not_eq_true]
      exact fun hc => h ((kgamSym_iff c i j).mp hc)
    have h2 : kgamSym c j i = false := by
      rw [← Bool.not_eq_true]
      exact fun hc => h ((kgamSym_iff c j i).mp hc).symm
    rw [h1, h2]

theorem kgmstam_symm (c : Circuit) (i j : ℕ) : kgmstam c i j = kgmstam c j i := by
  rw [kgmstam, kgmstam, Bool.or_comm]

theorem kgamSym_irrefl (c : Circuit) (hwf : WF c) (i : ℕ) : kgamSym c i i = false := by
  rw [← Bool.not_eq_true]
  intro hc
  exact (Adj_lt hwf ((kgamSym_iff c i i).mp hc)).2.2 rfl

theorem eled_char (c : Circuit) (hwf : WF c) :
    (∀ x : ℕ × ℕ, x ∈ eled c ↔
      (x.1 < x.2 ∧ kgamSym c x.1 x.2 = true ∧ kgmstam c x.1 x.2 = false ∧
        x.1 < c.n ∧ x.2 < c.n)) ∧
    (eled c).Nodup := by
  exact Eliminated_char (kgamSym c) (kgmstam c) (kgamSym_symm c) (kgmstam_symm c)
    (kgamSym_irrefl c hwf) c.n

theorem edgesList_mem_iff (c : Circuit) (hwf : WF c) (p : ℕ × ℕ) :
    p ∈ edgesList c ↔
      (p.1 < p.2 ∧ kgamSym c p.1 p.2 = true ∧ p.1 < c.n ∧ p.2 < c.n) := by
  rw [edgesList_mem]
  constructor
  · rintro ⟨h1, h2, h3⟩
    have hadj := (adjList_iff_Adj c hwf p.1 p.2).mp h3
    obtain ⟨hu, hv, hne⟩ := Adj_lt hwf hadj
    exact ⟨by omega, (kgamSym_iff c p.1 p.2).mpr hadj, hu, hv⟩
  · rintro ⟨h1, h2, h3, h4⟩
    have hadj := (kgamSym_iff c p.1 p.2).mp h2
    exact ⟨h3, by omega, (adjList_iff_Adj c hwf p.1 p.2).mpr hadj⟩

theorem mstEdges_mem_iff (c : Circuit) (hwf : WF c) (p : ℕ × ℕ) :
    p ∈ mstEdges c ↔
      (p.1 < p.2 ∧ kgamSym c p.1 p.2 = true ∧ kgmstam c p.1 p.2 = true ∧
        p.1 < c.n ∧ p.2 < c.n) := by
  constructor
  · intro h
    have h2 := (edgesList_mem_iff c hwf p).mp (mstEdges_sub c p h)
    refine ⟨h2.1, h2.2.1, ?_, h2.2.2⟩
    rw [kgmstam, Bool.or_eq_true, decide_eq_true_eq, decide_eq_true_eq]
    left
    rw [show ((p.1, p.2) : ℕ × ℕ) = p from rfl]
    exact h
  · rintro ⟨h1, h2, h3, h4, h5⟩
    rw [kgmstam, Bool.or_eq_true, decide_eq_true_eq, decide_eq_true_eq] at h3
    rcases h3 with h3 | h3
    · exact h3
    · have h6 := (edgesList_mem_iff c hwf (p.2, p.1)).mp (mstEdges_sub c _ h3)
      simp only [] at h6
      omega

theorem kruskal_foldl_sublist :
    ∀ (es : List (ℕ × ℕ)) (init : (ℕ → ℕ) × List (ℕ × ℕ)),
      ∃ t, (es.foldl kruskalStep init).2 = init.2 ++ t ∧ t.Sublist es := by
  intro es
  induction es with
  | nil =>
    intro init
    exact ⟨[], by simp, List.Sublist.refl []⟩
  | cons e r ih =>
    intro init
    rw [List.foldl_cons]
    by_cases hc : init.1 e.1 = init.1 e.2
    · have hstep : kruskalStep init e = init := by
        unfold kruskalStep
        rw [if_pos hc]
      rw [hstep]
      obtain ⟨t, ht, hsub⟩ := ih init
      exact ⟨t, ht, hsub.cons e⟩
    · have hstep : kruskalStep init e =
          (fun x => if init.1 x = init.1 e.1 then init.1 e.2 else init.1 x,
            init.2 ++ [e]) := by
        unfold kruskalStep
        rw [if_neg hc]
      rw [hstep]
      obtain ⟨t, ht, hsub⟩ := ih
        (fun x => if init.1 x = init.1 e.1 then init.1 e.2 else init.1 x, init.2 ++ [e])
      refine ⟨e :: t, ?_, hsub.cons₂ e⟩
      rw [ht]
      simp only []
      rw [List.append_assoc, List.singleton_append]

theorem mstEdges_nodup (c : Circuit) : (mstEdges c).Nodup := by
  obtain ⟨t, ht, hsub⟩ := kruskal_foldl_sublist (edgesList c) (id, [])
  rw [mstEdges, kruskalRun, ht]
  simp only [List.nil_append]
  exact hsub.nodup (edgesList_nodup c)

theorem eled_mst_length (c : Circuit) (hwf : WF c) :
    (eled c).length + (mstEdges c).length = (edgesList c).length := by
  classical
  have hsplit := @Finset.filter_card_add_filter_neg_card_eq_card _
    (Finset.filter (fun p : ℕ × ℕ => p.1 < p.2 ∧ kgamSym c p.1 p.2 = true)
      ((Finset.range c.n) ×ˢ (Finset.range c.n)))
    (fun p => kgmstam c p.1 p.2 = true) _ _
  have hE : (edgesList c).length =
      (Finset.filter (fun p : ℕ × ℕ => p.1 < p.2 ∧ kgamSym c p.1 p.2 = true)
        ((Finset.range c.n) ×ˢ (Finset.range c.n))).card := by
    rw [← List.toFinset_card_of_nodup (edgesList_nodup c)]
    congr 1
    ext p
    rw [List.mem_toFinset, edgesList_mem_iff c hwf, Finset.mem_filter,
      Finset.mem_product, Finset.mem_range, Finset.mem_range]
    tauto
  have hM : Finset.filter (fun p : ℕ × ℕ => kgmstam c p.1 p.2 = true)
      (Finset.filter (fun p : ℕ × ℕ => p.1 < p.2 ∧ kgamSym c p.1 p.2 = true)
        ((Finset.range c.n) ×ˢ (Finset.range c.n))) = (mstEdges c).toFinset := by
    ext p
    rw [Finset.mem_filter, Finset.mem_filter, List.mem_toFinset,
      mstEdges_mem_iff c hwf, Finset.mem_product, Finset.mem_range, Finset.mem_range]
    tauto
  have hL : Finset.filter (fun p : ℕ × ℕ => ¬ kgmstam c p.1 p.2 = true)
      (Finset.filter (fun p : ℕ × ℕ => p.1 < p.2 ∧ kgamSym c p.1 p.2 = true)
        ((Finset.range c.n) ×ˢ (Finset.range c.n))) = (eled c).toFinset := by
    ext p
    rw [Finset.mem_filter, Finset.mem_filter, List.mem_toFinset,
      (eled_char c hwf).1 p, Finset.mem_product, Finset.mem_range, Finset.mem_range,
      Bool.not_eq_true]
    constructor
    · rintro ⟨⟨⟨ha, hb⟩, hc, hd⟩, he⟩
      exact ⟨hc, hd, he, ha, hb⟩
    · rintro ⟨ha, hb, hc, hd, he⟩
      exact ⟨⟨⟨hd, he⟩, ha, hb⟩, hc⟩
  rw [hM, hL] at hsplit
  rw [List.toFinset_card_of_nodup (mstEdges_nodup c),
    List.toFinset_card_of_nodup (eled_char c hwf).2] at hsplit
  rw [hE]
  omega

/-! ## Fundamental-cycle count and claim C2 -/

theorem removeEdgeAdj_mem_of (adj : ℕ → List ℕ) (a b u x : ℕ) (h : x ∈ adj u)
    (h1 : ¬(u = a ∧ x = b)) (h2 : ¬(u = b ∧ x = a)) : x ∈ removeEdgeAdj adj a b u := by
  unfold removeEdgeAdj
  by_cases hu : u = a
  · rw [if_pos hu]
    refine List.mem_filter.mpr ⟨by rw [← hu]; exact h, ?_⟩
    simp only [decide_eq_true_eq]
    intro hc
    exact h1 ⟨hu, hc⟩
  · rw [if_neg hu]
    by_cases hub : u = b
    · rw [if_pos hub]
      refine List.mem_filter.mpr ⟨by rw [← hub]; exact h, ?_⟩
      simp only [decide_eq_true_eq]
      intro hc
      exact h2 ⟨hub, hc⟩
    · rw [if_neg hub]
      exact h

theorem nodup_length_le (l : List ℕ) (n : ℕ) (hnodup : l.Nodup)
    (hb : ∀ x ∈ l, x < n) : l.length ≤ n := by
  classical
  rw [← List.toFinset_card_of_nodup hnodup]
  have hsub : l.toFinset ⊆ Finset.range n := by
    intro x hx
    rw [List.mem_toFinset] at hx
    rw [Finset.mem_range]
    exact hb x hx
  calc l.toFinset.card ≤ (Finset.range n).card := Finset.card_le_card hsub
    _ = n := Finset.card_range n

theorem chain_mem_step {r : ℕ → ℕ → Prop} :
    ∀ (l : List ℕ) (u : ℕ), List.Chain r u l → ∀ x ∈ l, ∃ a, r a x := by
  intro l
  induction l with
  | nil =>
    intro u _ x hx
    simp at hx
  | cons v t ih =>
    intro u hchain x hx
    rw [List.chain_cons] at hchain
    rcases List.mem_cons.mp hx with rfl | hx2
    · exact ⟨u, hchain.1⟩
    · exact ih v hchain.2 x hx2

theorem find_cycle_trial_isSome (c : Circuit) (hwf : WF c)
    (hconn : ∀ x, x < c.n → ∀ y, y < c.n → Reach (edgesList c) x y) :
    ∀ g ∈ gl c, (find_cycle c.n g).isSome := by
  intro g hg
  obtain ⟨k, hk, hgeq⟩ := gl_mem hg
  have hel : (eled c).get ⟨k, hk⟩ ∈ eled c := List.get_mem (eled c) k hk
  obtain ⟨he1, he2, he3, he4, he5⟩ := ((eled_char c hwf).1 _).mp hel
  set e := (eled c).get ⟨k, hk⟩
  have hg1 : e.2 ∈ g e.1 := by
    rw [hgeq, adjOfSym_mem]
    refine ⟨he5, ?_⟩
    rw [setE_true_iff, setE_true_iff]
    right
    left
    exact ⟨rfl, rfl⟩
  have hedge : e ∈ edgesOfAdj c.n g := (edgesOfAdj_mem _ _ e).mpr ⟨he4, le_of_lt he1, hg1⟩
  have hreach : Reach (mstEdges c) e.2 e.1 :=
    (kruskal_run_inv (edgesList c) e.2 e.1).mp
      (reach_lab (edgesList c) (hconn e.2 he5 e.1 he4))
  have hstep : ∀ a b2 : ℕ, ((a, b2) ∈ mstEdges c ∨ (b2, a) ∈ mstEdges c) →
      b2 ∈ removeEdgeAdj g e.1 e.2 a := by
    intro a b2 hab
    have hmst : kgmstam c a b2 = true := by
      rw [kgmstam, Bool.or_eq_true, decide_eq_true_eq, decide_eq_true_eq]
      exact hab
    have hbounds : a < c.n ∧ b2 < c.n := by
      rcases hab with h | h
      · have h2 := (mstEdges_mem_iff c hwf _).mp h
        exact ⟨h2.2.2.2.1, h2.2.2.2.2⟩
      · have h2 := (mstEdges_mem_iff c hwf _).mp h
        exact ⟨h2.2.2.2.2, h2.2.2.2.1⟩
    have hadjg : b2 ∈ g a := by
      rw [hgeq, adjOfSym_mem]
      refine ⟨hbounds.2, ?_⟩
      rw [setE_true_iff, setE_true_iff]
      right
      right
      exact hmst
    apply removeEdgeAdj_mem_of g e.1 e.2 a b2 hadjg
    · rintro ⟨rfl, rfl⟩
      rw [he3] at hmst
      cases hmst
    · rintro ⟨rfl, rfl⟩
      rw [kgmstam_symm, he3] at hmst
      cases hmst
  have hchain0 : Relation.ReflTransGen (fun a b2 => b2 ∈ removeEdgeAdj g e.1 e.2 a) e.2 e.1 :=
    Relation.ReflTransGen.mono hstep hreach
  obtain ⟨l, hchain, hlast⟩ := List.exists_chain_of_relationReflTransGen hchain0
  have hlast2 : (e.2 :: l).getLast? = some e.1 := by
    rw [List.getLast?_eq_getLast _ (by simp), hlast]
  obtain ⟨l2, hchain2, hlast3, hnodup2, hsub2⟩ :=
    chain_dedup l.length l (le_refl _) e.2 e.1 hchain hlast2
  have hbound : ∀ x ∈ e.2 :: l2, x < c.n := by
    intro x hx
    rcases List.mem_cons.mp hx with rfl | hx2
    · exact he5
    · obtain ⟨a, ha⟩ := chain_mem_step l2 e.2 hchain2 x hx2
      have hxg : x ∈ g a := removeEdgeAdj_sub g e.1 e.2 a x ha
      rw [hgeq, adjOfSym_mem] at hxg
      exact hxg.1
  have hlen : l2.length < c.n + 1 := by
    have h2 : (e.2 :: l2).length ≤ c.n := nodup_length_le _ _ hnodup2 hbound
    simp only [List.length_cons] at h2
    omega
  have hps := pathSearch_complete l2 e.2 [] (c.n + 1) hchain2 hlast3 hnodup2
    (by simp) hlen
  rw [find_cycle]
  apply firstSome?_isSome hedge
  rw [Option.isSome_map']
  exact hps

theorem length_filterMap_all {α β : Type} (l : List α) (f : α → Option β)
    (h : ∀ x ∈ l, (f x).isSome) : (l.filterMap f).length = l.length := by
  induction l with
  | nil => rfl
  | cons x t ih =>
    rw [List.filterMap_cons]
    obtain ⟨y, hy⟩ := Option.isSome_iff_exists.mp (h x (by simp))
    rw [hy, List.length_cons, ih (fun z hz => h z (by simp [hz]))]
    rfl

theorem fcl_length_eq (c : Circuit) (hwf : WF c)
    (hconn : ∀ x, x < c.n → ∀ y, y < c.n → Reach (edgesList c) x y) :
    (fcl c).length = (eled c).length := by
  rw [fcl, find_fundamental_cycles,
    length_filterMap_all _ _ (find_cycle_trial_isSome c hwf hconn),
    gl, List.length_map, List.length_range]

/-- Claim C2: for a wellformed connected circuit with at least one branch,
the pipeline produces exactly one fundamental cycle per co-tree edge
(de-duplicated by unordered pair), `E - N + 1` fundamental cycles in total
(stated additively), `N - 1` KCL node rows, and the assembled system's
row counter stops at exactly `E` rows. -/
theorem C2_system_counts (c : Circuit) (hwf : WF c)
    (hconn : ∀ x, x < c.n → ∀ y, y < c.n → Reach (edgesList c) x y)
    (hE : 1 ≤ (edgesList c).length) :
    (fcl c).length = (eled c).length ∧
    (fcl c).length + c.n = (edgesList c).length + 1 ∧
    (edgesList c).length = (fcl c).length + (c.n - 1) ∧
    ((assemble c).map (fun st => st.i)) = some ((edgesList c).length) := by
  have hn : 1 ≤ c.n := by
    obtain ⟨e, he⟩ := List.exists_mem_of_length_pos (by omega : 0 < (edgesList c).length)
    have h2 := (edgesList_bounds c e he).1
    omega
  have hmst := mstEdges_length c hconn hn
  have helen := eled_mst_length c hwf
  have hfcl := fcl_length_eq c hwf hconn
  have hn2 : 2 ≤ c.n := by
    obtain ⟨e, he⟩ := List.exists_mem_of_length_pos (by omega : 0 < (edgesList c).length)
    have h2 := (edgesList_mem_iff c hwf e).mp he
    have h3 := (edgesList_bounds c e he).2
    omega
  refine ⟨hfcl, by omega, by omega, ?_⟩
  obtain ⟨st2, hst2⟩ := Option.isSome_iff_exists.mp (assemble_isSome c hwf)
  obtain ⟨st1, hst1, hloop⟩ := assemble_some_spec hst2
  have hst1i := (kvlPhase_foldl_frame c (fcl c) _ st1 hst1).1
  simp only [Nat.zero_add] at hst1i
  have hfin : st2.i = (edgesList c).length := by
    apply kclLoop_count c (edgesList c).length (List.range c.n) st1 st2 hloop
    · omega
    · rw [List.length_range]
      omega
  rw [hst2, Option.map_some', hfin]

/-- Witness for C2 at the triangle circuit. -/
theorem C2_system_counts_witness :
    WF triK ∧ 1 ≤ (edgesList triK).length ∧
    (fcl triK).length = (eled triK).length ∧
    (fcl triK).length + triK.n = (edgesList triK).length + 1 ∧
    ((assemble triK).map (fun st => st.i)) = some ((edgesList triK).length) := by
  have hlab : ∀ x, x < triK.n → ∀ y, y < triK.n →
      (kruskalRun (edgesList triK)).1 x = (kruskalRun (edgesList triK)).1 y := by
    decide
  have hconn : ∀ x, x < triK.n → ∀ y, y < triK.n → Reach (edgesList triK) x y :=
    fun x hx y hy => reach_of_lab (hlab x hx y hy)
  have h := C2_system_counts triK (by decide) hconn (by decide)
  exact ⟨by decide, by decide, h.1, h.2.1, h.2.2.2⟩

/-! ## Partitioner characterization (claim C6) -/

theorem edge_rec_unique (c : Circuit) (hwf : WF c) {r r2 : BranchRec}
    (hr : r ∈ c.recs) (hr2 : r2 ∈ c.recs) (hsame : samePair r r2) : r = r2 := by
  by_contra hne
  have hsymm : Symmetric (fun a b : BranchRec => ¬ samePair a b) := by
    intro a b hab hba
    apply hab
    rcases hba with ⟨h1, h2⟩ | ⟨h1, h2⟩
    · exact Or.inl ⟨h1.symm, h2.symm⟩
    · exact Or.inr ⟨h2.symm, h1.symm⟩
  exact (List.Pairwise.forall hsymm hwf.2) hr hr2 hne hsame

theorem sep_t (c : Circuit) (hwf : WF c) {e : ℕ × ℕ} {r : BranchRec}
    (hd : edgeData c e.1 e.2 = some r) :
    (if isstraight e.1 e.2 (r.org, r.dst) then (e.1, e.2) else (e.2, e.1)) =
      (r.org, r.dst) := by
  obtain ⟨hr, hcase⟩ := edgeData_eq_some hd
  have hne := (hwf.1 r hr).2.2
  rcases hcase with ⟨h1, h2⟩ | ⟨h1, h2⟩
  · rw [if_pos (by simp [isstraight, h1, h2])]
    rw [h1, h2]
  · rw [if_neg ?_]
    · rw [h1, h2]
    · simp only [isstraight, Bool.and_eq_true, decide_eq_true_eq]
      rintro ⟨ha, hb⟩
      apply hne
      omega

theorem sepEdge_eq (c : Circuit) (hwf : WF c) {st : Part × Bool} {e : ℕ × ℕ}
    {r : BranchRec} (hd : edgeData c e.1 e.2 = some r) :
    sepEdge c st e =
      (if r.cap = 0 then
        (if (r.org, r.dst) ∈ st.1.cwe then some st
         else some ({ st.1 with cwe := st.1.cwe ++ [(r.org, r.dst)] }, st.2))
      else
        (if (r.org, r.dst) ∈ st.1.vwe then some (st.1, true)
         else some ({ st.1 with vwe := st.1.vwe ++ [(r.org, r.dst)] }, true))) := by
  have ht := sep_t c hwf hd
  unfold sepEdge
  rw [hd]
  simp only [ht]

theorem sepEdge_fold (c : Circuit) (hwf : WF c) :
    ∀ (cyl : List (ℕ × ℕ)) (P : Part) (b : Bool),
      (∀ e ∈ cyl, (edgeData c e.1 e.2).isSome) →
      ∃ P2 b2, cyl.foldlM (sepEdge c) ((P, b) : Part × Bool) = some (P2, b2) ∧
        b2 = (b || cyl.any (varB c)) ∧
        P2.cwc = P.cwc ∧ P2.vwc = P.vwc ∧ P2.vwci = P.vwci ∧
        (∀ t, t ∈ P2.cwe ↔ (t ∈ P.cwe ∨ ∃ e ∈ cyl, ∃ r, edgeData c e.1 e.2 = some r ∧
          r.cap = 0 ∧ t = (r.org, r.dst))) ∧
        (∀ t, t ∈ P2.vwe ↔ (t ∈ P.vwe ∨ ∃ e ∈ cyl, ∃ r, edgeData c e.1 e.2 = some r ∧
          r.cap ≠ 0 ∧ t = (r.org, r.dst))) := by
  intro cyl
  induction cyl with
  | nil =>
    intro P b _
    exact ⟨P, b, rfl, by simp, rfl, rfl, rfl, by simp, by simp⟩
  | cons e rest ih =>
    intro P b hall
    obtain ⟨r, hd⟩ := Option.isSome_iff_exists.mp (hall e (List.mem_cons_self e rest))
    have hrest : ∀ q ∈ rest, (edgeData c q.1 q.2).isSome :=
      fun q hq => hall q (List.mem_cons_of_mem e hq)
    have hvb : varB c e = decide (r.cap ≠ 0) := by
      unfold varB
      rw [hd]
    have hstep := @sepEdge_eq c hwf (P, b) e r hd
    have hfold : (e :: rest).foldlM (sepEdge c) ((P, b) : Part × Bool) =
        (sepEdge c (P, b) e).bind (fun s => rest.foldlM (sepEdge c) s) := by
      rfl
    by_cases hc : r.cap = 0
    · rw [if_pos hc] at hstep
      by_cases hm : (r.org, r.dst) ∈ P.cwe
      · rw [if_pos hm] at hstep
        obtain ⟨P2, b2, hres, hb2, hcwc, hvwc, hvwci, hcwe, hvwe⟩ := ih P b hrest
        refine ⟨P2, b2, ?_, ?_, hcwc, hvwc, hvwci, ?_, ?_⟩
        · rw [hfold, hstep, Option.some_bind, hres]
        · rw [hb2, List.any_cons, hvb]
          simp [hc]
        · intro t
          rw [hcwe t]
          constructor
          · rintro (h | h)
            · exact Or.inl h
            · obtain ⟨q, hq, r2, hd2, hcap2, ht⟩ := h
              exact Or.inr ⟨q, List.mem_cons_of_mem e hq, r2, hd2, hcap2, ht⟩
          · rintro (h | ⟨q, hq, r2, hd2, hcap2, ht⟩)
            · exact Or.inl h
            · rcases List.mem_cons.mp hq with rfl | hq2
              · rw [hd] at hd2
                cases hd2
                exact Or.inl (ht ▸ hm)
              · exact Or.inr ⟨q, hq2, r2, hd2, hcap2, ht⟩
        · intro t
          rw [hvwe t]
          constructor
          · rintro (h | h)
            · exact Or.inl h
            · obtain ⟨q, hq, r2, hd2, hcap2, ht⟩ := h
              exact Or.inr ⟨q, List.mem_cons_of_mem e hq, r2, hd2, hcap2, ht⟩
          · rintro (h | ⟨q, hq, r2, hd2, hcap2, ht⟩)
            · exact Or.inl h
            · rcases List.mem_cons.mp hq with rfl | hq2
              · rw [hd] at hd2
                cases hd2
                exact absurd hc hcap2
              · exact Or.inr ⟨q, hq2, r2, hd2, hcap2, ht⟩
      · rw [if_neg hm] at hstep
        obtain ⟨P2, b2, hres, hb2, hcwc, hvwc, hvwci, hcwe, hvwe⟩ :=
          ih ({ P with cwe := P.cwe ++ [(r.org, r.dst)] }) b hrest
        refine ⟨P2, b2, ?_, ?_, hcwc, hvwc, hvwci, ?_, ?_⟩
        · rw [hfold, hstep, Option.some_bind, hres]
        · rw [hb2, List.any_cons, hvb]
          simp [hc]
        · intro t
          rw [hcwe t]
          constructor
          · rintro (h | h)
            · rcases List.mem_append.mp h with h2 | h2
              · exact Or.inl h2
              · refine Or.inr ⟨e, List.mem_cons_self e rest, r, hd, hc, ?_⟩
                simpa using h2
            · obtain ⟨q, hq, r2, hd2, hcap2, ht⟩ := h
              exact Or.inr ⟨q, List.mem_cons_of_mem e hq, r2, hd2, hcap2, ht⟩
          · rintro (h | ⟨q, hq, r2, hd2, hcap2, ht⟩)
            · exact Or.inl (List.mem_append.mpr (Or.inl h))
            · rcases List.mem_cons.mp hq with rfl | hq2
              · rw [hd] at hd2
                cases hd2
                exact Or.inl (List.mem_append.mpr (Or.inr (by simp [ht])))
              · exact Or.inr ⟨q, hq2, r2, hd2, hcap2, ht⟩
        · intro t
          rw [hvwe t]
          constructor
          · rintro (h | h)
            · exact Or.inl h
            · obtain ⟨q, hq, r2, hd2, hcap2, ht⟩ := h
              exact Or.inr ⟨q, List.mem_cons_of_mem e hq, r2, hd2, hcap2, ht⟩
          · rintro (h | ⟨q, hq, r2, hd2, hcap2, ht⟩)
            · exact Or.inl h
            · rcases List.mem_cons.mp hq with rfl | hq2
              · rw [hd] at hd2
                cases hd2
                exact absurd hc hcap2
              · exact Or.inr ⟨q, hq2, r2, hd2, hcap2, ht⟩
    · rw [if_neg hc] at hstep
      by_cases hm : (r.org, r.dst) ∈ P.vwe
      · rw [if_pos hm] at hstep
        obtain ⟨P2, b2, hres, hb2, hcwc, hvwc, hvwci, hcwe, hvwe⟩ := ih P true hrest
        refine ⟨P2, b2, ?_, ?_, hcwc, hvwc, hvwci, ?_, ?_⟩
        · rw [hfold, hstep, Option.some_bind, hres]
        · rw [hb2, List.any_cons, hvb]
          simp [hc]
        · intro t
          rw [hcwe t]
          constructor
          · rintro (h | h)
            · exact Or.inl h
            · obtain ⟨q, hq, r2, hd2, hcap2, ht⟩ := h
              exact Or.inr ⟨q, List.mem_cons_of_mem e hq, r2, hd2, hcap2, ht⟩
          · rintro (h | ⟨q, hq, r2, hd2, hcap2, ht⟩)
            · exact Or.inl h
            · rcases List.mem_cons.mp hq with rfl | hq2
              · rw [hd] at hd2
                cases hd2
                exact absurd hcap2 (by simp [hc])
              · exact Or.inr ⟨q, hq2, r2, hd2, hcap2, ht⟩
        · intro t
          rw [hvwe t]
          constructor
          · rintro (h | h)
            · exact Or.inl h
            · obtain ⟨q, hq, r2, hd2, hcap2, ht⟩ := h
              exact Or.inr ⟨q, List.mem_cons_of_mem e hq, r2, hd2, hcap2, ht⟩
          · rintro (h | ⟨q, hq, r2, hd2, hcap2, ht⟩)
            · exact Or.inl h
            · rcases List.mem_cons.mp hq with rfl | hq2
              · rw [hd] at hd2
                cases hd2
                exact Or.inl (ht ▸ hm)
              · exact Or.inr ⟨q, hq2, r2, hd2, hcap2, ht⟩
      · rw [if_neg hm] at hstep
        obtain ⟨P2, b2, hres, hb2, hcwc, hvwc, hvwci, hcwe, hvwe⟩ :=
          ih ({ P with vwe := P.vwe ++ [(r.org, r.dst)] }) true hrest
        refine ⟨P2, b2, ?_, ?_, hcwc, hvwc, hvwci, ?_, ?_⟩
        · rw [hfold, hstep, Option.some_bind, hres]
        · rw [hb2, List.any_cons, hvb]
          simp [hc]
        · intro t
          rw [hcwe t]
          constructor
          · rintro (h | h)
            · exact Or.inl h
            · obtain ⟨q, hq, r2, hd2, hcap2, ht⟩ := h
              exact Or.inr ⟨q, List.mem_cons_of_mem e hq, r2, hd2, hcap2, ht⟩
          · rintro (h | ⟨q, hq, r2, hd2, hcap2, ht⟩)
            · exact Or.inl h
            · rcases List.mem_cons.mp hq with rfl | hq2
              · rw [hd] at hd2
                cases hd2
                exact absurd hcap2 (by simp [hc])
              · exact Or.inr ⟨q, hq2, r2, hd2, hcap2, ht⟩
        · intro t
          rw [hvwe t]
          constructor
          · rintro (h | h)
            · rcases List.mem_append.mp h with h2 | h2
              · exact Or.inl h2
              · refine Or.inr ⟨e, List.mem_cons_self e rest, r, hd, hc, ?_⟩
                simpa using h2
            · obtain ⟨q, hq, r2, hd2, hcap2, ht⟩ := h
              exact Or.inr ⟨q, List.mem_cons_of_mem e hq, r2, hd2, hcap2, ht⟩
          · rintro (h | ⟨q, hq, r2, hd2, hcap2, ht⟩)
            · exact Or.inl (List.mem_append.mpr (Or.inl h))
            · rcases List.mem_cons.mp hq with rfl | hq2
              · rw [hd] at hd2
                cases hd2
                exact Or.inl (List.mem_append.mpr (Or.inr (by simp [ht])))
              · exact Or.inr ⟨q, hq2, r2, hd2, hcap2, ht⟩

theorem sepCycle_eq (c : Circuit) (hwf : WF c) {P : Part} {k : ℕ}
    {cy : List (ℕ × ℕ)} (hall : ∀ e ∈ cy, (edgeData c e.1 e.2).isSome) :
    ∃ P2, sepCycle c (P, k) cy = some (P2, k + 1) ∧
      P2.cwc = (if cycleHasVar c cy then P.cwc else P.cwc ++ [cy]) ∧
      P2.vwc = (if cycleHasVar c cy then P.vwc ++ [cy] else P.vwc) ∧
      (∀ t, t ∈ P2.cwe ↔ (t ∈ P.cwe ∨ ∃ e ∈ cy, ∃ r, edgeData c e.1 e.2 = some r ∧
        r.cap = 0 ∧ t = (r.org, r.dst))) ∧
      (∀ t, t ∈ P2.vwe ↔ (t ∈ P.vwe ∨ ∃ e ∈ cy, ∃ r, edgeData c e.1 e.2 = some r ∧
        r.cap ≠ 0 ∧ t = (r.org, r.dst))) := by
  obtain ⟨Pf, b2, hres, hb2, hcwc, hvwc, _, hcwe, hvwe⟩ := sepEdge_fold c hwf cy P false hall
  have hb2v : b2 = cycleHasVar c cy := by
    rw [hb2, Bool.false_or]
    rfl
  rcases Bool.eq_false_or_eq_true (cycleHasVar c cy) with hv | hv
  · refine ⟨{ Pf with vwc := Pf.vwc ++ [cy], vwci := Pf.vwci ++ [k] }, ?_, ?_, ?_, hcwe, hvwe⟩
    · unfold sepCycle
      rw [hres, hb2v, hv]
      rfl
    · rw [hv]
      simpa using hcwc
    · rw [hv]
      simp [hvwc]
  · refine ⟨{ Pf with cwc := Pf.cwc ++ [cy] }, ?_, ?_, ?_, hcwe, hvwe⟩
    · unfold sepCycle
      rw [hres, hb2v, hv]
      rfl
    · rw [hv]
      simp [hcwc]
    · rw [hv]
      simpa using hvwc

theorem sep_fold (c : Circuit) (hwf : WF c) :
    ∀ (L : List (List (ℕ × ℕ))) (P : Part) (k : ℕ),
      (∀ cy ∈ L, ∀ e ∈ cy, (edgeData c e.1 e.2).isSome) →
      ∃ P2 k2, L.foldlM (sepCycle c) ((P, k) : Part × ℕ) = some (P2, k2) ∧
        (∀ cy, cy ∈ P2.cwc ↔ (cy ∈ P.cwc ∨ (cy ∈ L ∧ cycleHasVar c cy = false))) ∧
        (∀ cy, cy ∈ P2.vwc ↔ (cy ∈ P.vwc ∨ (cy ∈ L ∧ cycleHasVar c cy = true))) ∧
        (∀ t, t ∈ P2.cwe ↔ (t ∈ P.cwe ∨ ∃ cy ∈ L, ∃ e ∈ cy, ∃ r,
          edgeData c e.1 e.2 = some r ∧ r.cap = 0 ∧ t = (r.org, r.dst))) ∧
        (∀ t, t ∈ P2.vwe ↔ (t ∈ P.vwe ∨ ∃ cy ∈ L, ∃ e ∈ cy, ∃ r,
          edgeData c e.1 e.2 = some r ∧ r.cap ≠ 0 ∧ t = (r.org, r.dst))) := by
  intro L
  induction L with
  | nil =>
    intro P k _
    exact ⟨P, k, rfl, by simp, by simp, by simp, by simp⟩
  | cons cy rest ih =>
    intro P k hall
    have hcy : ∀ e ∈ cy, (edgeData c e.1 e.2).isSome :=
      hall cy (List.mem_cons_self cy rest)
    have hrest : ∀ d ∈ rest, ∀ e ∈ d, (edgeData c e.1 e.2).isSome :=
      fun d hd => hall d (List.mem_cons_of_mem cy hd)
    obtain ⟨P1, hstep, hcwc1, hvwc1, hcwe1, hvwe1⟩ := @sepCycle_eq c hwf P k cy hcy
    obtain ⟨P2, k2, hres, hcwc2, hvwc2, hcwe2, hvwe2⟩ := ih P1 (k + 1) hrest
    have hfold : (cy :: rest).foldlM (sepCycle c) ((P, k) : Part × ℕ) =
        (sepCycle c (P, k) cy).bind (fun s => rest.foldlM (sepCycle c) s) := rfl
    refine ⟨P2, k2, ?_, ?_, ?_, ?_, ?_⟩
    · rw [hfold, hstep, Option.some_bind]
      exact hres
    · intro d
      rw [hcwc2 d, hcwc1]
      by_cases hv : cycleHasVar c cy = true
      · rw [if_pos hv]
        constructor
        · rintro (h | ⟨h1, h2⟩)
          · exact Or.inl h
          · exact Or.inr ⟨List.mem_cons_of_mem cy h1, h2⟩
        · rintro (h | ⟨h1, h2⟩)
          · exact Or.inl h
          · rcases List.mem_cons.mp h1 with rfl | h3
            · rw [hv] at h2
              cases h2
            · exact Or.inr ⟨h3, h2⟩
      · rw [if_neg hv]
        constructor
        · rintro (h | ⟨h1, h2⟩)
          · rcases List.mem_append.mp h with h3 | h3
            · exact Or.inl h3
            · have hdc : d = cy := by simpa using h3
              subst hdc
              exact Or.inr ⟨List.mem_cons_self d rest, Bool.eq_false_iff.mpr hv⟩
          · exact Or.inr ⟨List.mem_cons_of_mem cy h1, h2⟩
        · rintro (h | ⟨h1, h2⟩)
          · exact Or.inl (List.mem_append.mpr (Or.inl h))
          · rcases List.mem_cons.mp h1 with rfl | h3
            · exact Or.inl (List.mem_append.mpr (Or.inr (by simp)))
            · exact Or.inr ⟨h3, h2⟩
    · intro d
      rw [hvwc2 d, hvwc1]
      by_cases hv : cycleHasVar c cy = true
      · rw [if_pos hv]
        constructor
        · rintro (h | ⟨h1, h2⟩)
          · rcases List.mem_append.mp h with h3 | h3
            · exact Or.inl h3
            · have hdc : d = cy := by simpa using h3
              subst hdc
              exact Or.inr ⟨List.mem_cons_self d rest, hv⟩
          · exact Or.inr ⟨List.mem_cons_of_mem cy h1, h2⟩
        · rintro (h | ⟨h1, h2⟩)
          · exact Or.inl (List.mem_append.mpr (Or.inl h))
          · rcases List.mem_cons.mp h1 with rfl | h3
            · exact Or.inl (List.mem_append.mpr (Or.inr (by simp)))
            · exact Or.inr ⟨h3, h2⟩
      · rw [if_neg hv]
        constructor
        · rintro (h | ⟨h1, h2⟩)
          · exact Or.inl h
          · exact Or.inr ⟨List.mem_cons_of_mem cy h1, h2⟩
        · rintro (h | ⟨h1, h2⟩)
          · exact Or.inl h
          · rcases List.mem_cons.mp h1 with rfl | h3
            · rw [h2] at hv
              cases hv rfl
            · exact Or.inr ⟨h3, h2⟩
    · intro t
      rw [hcwe2 t, hcwe1 t]
      constructor
      · rintro ((h | ⟨e, he, r, hd, hcap, ht⟩) | ⟨d, hdm, e, he, r, hd, hcap, ht⟩)
        · exact Or.inl h
        · exact Or.inr ⟨cy, List.mem_cons_self cy rest, e, he, r, hd, hcap, ht⟩
        · exact Or.inr ⟨d, List.mem_cons_of_mem cy hdm, e, he, r, hd, hcap, ht⟩
      · rintro (h | ⟨d, hdm, e, he, r, hd, hcap, ht⟩)
        · exact Or.inl (Or.inl h)
        · rcases List.mem_cons.mp hdm with rfl | h3
          · exact Or.inl (Or.inr ⟨e, he, r, hd, hcap, ht⟩)
          · exact Or.inr ⟨d, h3, e, he, r, hd, hcap, ht⟩
    · intro t
      rw [hvwe2 t, hvwe1 t]
      constructor
      · rintro ((h | ⟨e, he, r, hd, hcap, ht⟩) | ⟨d, hdm, e, he, r, hd, hcap, ht⟩)
        · exact Or.inl h
        · exact Or.inr ⟨cy, List.mem_cons_self cy rest, e, he, r, hd, hcap, ht⟩
        · exact Or.inr ⟨d, List.mem_cons_of_mem cy hdm, e, he, r, hd, hcap, ht⟩
      · rintro (h | ⟨d, hdm, e, he, r, hd, hcap, ht⟩)
        · exact Or.inl (Or.inl h)
        · rcases List.mem_cons.mp hdm with rfl | h3
          · exact Or.inl (Or.inr ⟨e, he, r, hd, hcap, ht⟩)
          · exact Or.inr ⟨d, h3, e, he, r, hd, hcap, ht⟩

theorem sep_spec (c : Circuit) (hwf : WF c) :
    ∃ P, seperate_const_variable c = some P ∧
      (∀ cy, cy ∈ P.cwc ↔ (cy ∈ fcl c ∧ cycleHasVar c cy = false)) ∧
      (∀ cy, cy ∈ P.vwc ↔ (cy ∈ fcl c ∧ cycleHasVar c cy = true)) ∧
      (∀ t, t ∈ P.cwe ↔ ∃ cy ∈ fcl c, ∃ e ∈ cy, ∃ r,
        edgeData c e.1 e.2 = some r ∧ r.cap = 0 ∧ t = (r.org, r.dst)) ∧
      (∀ t, t ∈ P.vwe ↔ ∃ cy ∈ fcl c, ∃ e ∈ cy, ∃ r,
        edgeData c e.1 e.2 = some r ∧ r.cap ≠ 0 ∧ t = (r.org, r.dst)) := by
  have hall : ∀ cy ∈ fcl c, ∀ e ∈ cy, (edgeData c e.1 e.2).isSome :=
    fun cy hcy e he => (fcl_cycle_lookups c hwf hcy e he).1
  obtain ⟨P2, k2, hres, hcwc, hvwc, hcwe, hvwe⟩ :=
    sep_fold c hwf (fcl c) ⟨[], [], [], [], []⟩ 0 hall
  refine ⟨P2, ?_, ?_, ?_, ?_, ?_⟩
  · unfold seperate_const_variable
    rw [hres]
    rfl
  · intro cy
    rw [hcwc cy]
    simp
  · intro cy
    rw [hvwc cy]
    simp
  · intro t
    rw [hcwe t]
    simp
  · intro t
    rw [hvwe t]
    simp

/-- Claim C6, amended to the branches the partitioner actually visits: on
a wellformed circuit, every branch that lies on at least one fundamental
cycle is placed (under its canonical orientation `(org, dst)`) in the
constant-weight edge list exactly when its capacitance is zero and in the
variable-weight edge list exactly when it is nonzero, and every
fundamental cycle is placed in the variable-weight cycle list exactly when
it contains a variable-weight branch and in the constant-weight cycle list
otherwise. -/
theorem C6_partition_amended (c : Circuit) (hwf : WF c) :
    ∀ cy ∈ fcl c,
      (∀ e ∈ cy, ∀ r : BranchRec, edgeData c e.1 e.2 = some r →
        ((seperate_const_variable c).map (fun p => decide ((r.org, r.dst) ∈ p.cwe)))
          = some (decide (r.cap = 0)) ∧
        ((seperate_const_variable c).map (fun p => decide ((r.org, r.dst) ∈ p.vwe)))
          = some (decide (r.cap ≠ 0))) ∧
      ((seperate_const_variable c).map (fun p => decide (cy ∈ p.cwc)))
        = some (!(cycleHasVar c cy)) ∧
      ((seperate_const_variable c).map (fun p => decide (cy ∈ p.vwc)))
        = some (cycleHasVar c cy) := by
  obtain ⟨P, hsep, hcwc, hvwc, hcwe, hvwe⟩ := sep_spec c hwf
  intro cy hcy
  refine ⟨?_, ?_, ?_⟩
  · intro e he r hd
    constructor
    · rw [hsep]
      show some (decide ((r.org, r.dst) ∈ P.cwe)) = some (decide (r.cap = 0))
      refine congrArg some ?_
      rw [decide_eq_decide]
      rw [hcwe]
      constructor
      · rintro ⟨cy2, hcy2, e2, he2, r2, hd2, hcap2, ht⟩
        have hrr : r = r2 := by
          have h1 := edgeData_eq_some hd
          have h2 := edgeData_eq_some hd2
          exact edge_rec_unique c hwf h1.1 h2.1
            (Or.inl ⟨congrArg Prod.fst ht, congrArg Prod.snd ht⟩)
        rw [hrr]
        exact hcap2
      · intro hcap
        exact ⟨cy, hcy, e, he, r, hd, hcap, rfl⟩
    · rw [hsep]
      show some (decide ((r.org, r.dst) ∈ P.vwe)) = some (decide (r.cap ≠ 0))
      refine congrArg some ?_
      rw [decide_eq_decide]
      rw [hvwe]
      constructor
      · rintro ⟨cy2, hcy2, e2, he2, r2, hd2, hcap2, ht⟩
        have hrr : r = r2 := by
          have h1 := edgeData_eq_some hd
          have h2 := edgeData_eq_some hd2
          exact edge_rec_unique c hwf h1.1 h2.1
            (Or.inl ⟨congrArg Prod.fst ht, congrArg Prod.snd ht⟩)
        rw [hrr]
        exact hcap2
      · intro hcap
        exact ⟨cy, hcy, e, he, r, hd, hcap, rfl⟩
  · rw [hsep]
    show some (decide (cy ∈ P.cwc)) = some (!(cycleHasVar c cy))
    refine congrArg some ?_
    rcases Bool.eq_false_or_eq_true (cycleHasVar c cy) with hv | hv
    · rw [hv]
      simp only [Bool.not_true]
      rw [decide_eq_false_iff_not, hcwc cy]
      simp [hv]
    · rw [hv]
      simp only [Bool.not_false]
      rw [decide_eq_true_eq, hcwc cy]
      exact ⟨hcy, hv⟩
  · rw [hsep]
    show some (decide (cy ∈ P.vwc)) = some (cycleHasVar c cy)
    refine congrArg some ?_
    rcases Bool.eq_false_or_eq_true (cycleHasVar c cy) with hv | hv
    · rw [hv]
      rw [decide_eq_true_eq, hvwc cy]
      exact ⟨hcy, hv⟩
    · rw [hv]
      rw [decide_eq_false_iff_not, hvwc cy]
      simp [hv]

/-- Witness for the amended claim C6: on the two-triangle circuit the
fundamental cycle `[(0,1),(1,2),(2,0)]` contains the capacitive branch
`(2,0)`, which lands in the variable-weight edge list and not in the
constant-weight one, and the cycle itself lands in the variable-weight
cycle list and not in the constant-weight one. -/
theorem C6_partition_amended_witness :
    (seperate_const_variable twoTriK).map
        (fun p => decide (((2 : ℕ), (0 : ℕ)) ∈ p.cwe)) = some (decide ((1 : ℚ) = 0)) ∧
    (seperate_const_variable twoTriK).map
        (fun p => decide (((2 : ℕ), (0 : ℕ)) ∈ p.vwe)) = some (decide ((1 : ℚ) ≠ 0)) ∧
    (seperate_const_variable twoTriK).map
        (fun p => decide ([(0, 1), (1, 2), (2, 0)] ∈ p.cwc))
      = some (!(cycleHasVar twoTriK [(0, 1), (1, 2), (2, 0)])) ∧
    (seperate_const_variable twoTriK).map
        (fun p => decide ([(0, 1), (1, 2), (2, 0)] ∈ p.vwc))
      = some (cycleHasVar twoTriK [(0, 1), (1, 2), (2, 0)]) := by
  have h := C6_partition_amended twoTriK (by decide)
    [(0, 1), (1, 2), (2, 0)] (by decide)
  have he := h.1 (2, 0) (by decide) ⟨2, 0, 1, 0, 1, 0⟩ (by decide)
  exact ⟨he.1, he.2, h.2.1, h.2.2⟩

end GRacC
